import Mathlib

/-!
Verification of the familyroots genealogy record keeper.

The development shallowly embeds:
* the shared data model (`shared/schema.ts`): `Person`, `InsertPerson`,
  `Relationship`, `InsertRelationship`, `FamilyTreeData`;
* the in-memory store (`MemStorage` in the server storage module): JavaScript
  `Map`s become association lists with `Map` semantics (`set` replaces in
  place or appends, `delete` removes, `values` lists in insertion order);
* the tree builder (`buildFamilyTree` in `client/src/lib/treeUtils.ts`);
* the layout engine (`layoutFamilyTree`).

Ids are JavaScript numbers used as integers; they are embedded as `Int`.
-/

/-- The fields of an insertable person record (`InsertPerson` in
`shared/schema.ts`): everything of a person except the id.  Dates are the
string payloads of the schema's `date` columns. -/
structure InsertPerson where
  name : String
  gender : Option String
  birthDate : Option String
  birthPlace : Option String
  deathDate : Option String
  notes : Option String
deriving DecidableEq, Repr

/-- A stored person (`Person` in `shared/schema.ts`): the insert fields plus
the store-assigned id. -/
structure Person extends InsertPerson where
  id : Int
deriving DecidableEq, Repr

/-- The fields of an insertable relationship (`InsertRelationship`): a type
string (the schema stores it as free text) and the two person ids. -/
structure InsertRelationship where
  type : String
  personId : Int
  relatedPersonId : Int
deriving DecidableEq, Repr

/-- A stored relationship (`Relationship`): the insert fields plus the id. -/
structure Relationship extends InsertRelationship where
  id : Int
deriving DecidableEq, Repr

/-! ### JavaScript `Map` semantics over association lists

A `Map` is embedded as a `List (Int × α)` in insertion order.  `set` on an
existing key overwrites the value in place (keeping the entry's position);
on a fresh key it appends.  `delete` removes the entry.  `values()`
enumerates values in entry order. -/

/-- `Map.get`: the value stored under `k`, if any. -/
def mapGet (m : List (Int × α)) (k : Int) : Option α :=
  (m.find? (fun e => e.1 == k)).map (·.2)

/-- `Map.has`. -/
def mapHas (m : List (Int × α)) (k : Int) : Bool :=
  m.any (fun e => e.1 == k)

/-- `Map.set`: overwrite in place if the key exists, else append. -/
def mapSet (m : List (Int × α)) (k : Int) (v : α) : List (Int × α) :=
  if mapHas m k then m.map (fun e => if e.1 == k then (k, v) else e)
  else m ++ [(k, v)]

/-- `Map.delete` (the resulting map; the returned boolean is `mapHas`). -/
def mapDelete (m : List (Int × α)) (k : Int) : List (Int × α) :=
  m.filter (fun e => e.1 != k)

/-- `Map.values()` in insertion order. -/
def mapValues (m : List (Int × α)) : List α :=
  m.map (·.2)

/-! ### The in-memory store (`MemStorage`) -/

/-- The state of a `MemStorage` instance: the two maps and the two
auto-increment counters. -/
structure Store where
  persons : List (Int × Person)
  relationships : List (Int × Relationship)
  currentPersonId : Int
  currentRelationshipId : Int
deriving DecidableEq, Repr

/-- The store built by the `MemStorage` constructor. -/
def emptyStore : Store :=
  { persons := [], relationships := [], currentPersonId := 1, currentRelationshipId := 1 }

/-- `MemStorage.getPerson`. -/
def getPerson (s : Store) (id : Int) : Option Person :=
  mapGet s.persons id

/-- `MemStorage.getAllPersons`. -/
def getAllPersons (s : Store) : List Person :=
  mapValues s.persons

/-- `MemStorage.createPerson`: take the next person id, build the record by
spreading the insert fields and the id, and store it. -/
def createPerson (s : Store) (insertPerson : InsertPerson) : Person × Store :=
  let id := s.currentPersonId
  let person : Person := { toInsertPerson := insertPerson, id := id }
  (person,
   { s with persons := mapSet s.persons id person, currentPersonId := id + 1 })

/-- `MemStorage.updatePerson`: full-record replace keeping the id; `none`
when the id is not stored. -/
def updatePerson (s : Store) (id : Int) (up : InsertPerson) : Option Person × Store :=
  match mapGet s.persons id with
  | none => (none, s)
  | some _ =>
    let updatedPerson : Person := { toInsertPerson := up, id := id }
    (some updatedPerson, { s with persons := mapSet s.persons id updatedPerson })

/-- `MemStorage.getRelationship`. -/
def getRelationship (s : Store) (id : Int) : Option Relationship :=
  mapGet s.relationships id

/-- `MemStorage.getRelationshipsByPerson`. -/
def getRelationshipsByPerson (s : Store) (personId : Int) : List Relationship :=
  (mapValues s.relationships).filter
    (fun rel => rel.personId == personId || rel.relatedPersonId == personId)

/-- `MemStorage.getReciprocalType`. -/
def getReciprocalType (type : String) : String :=
  match type with
  | "parent" => "child"
  | "child" => "parent"
  | "spouse" => "spouse"
  | "sibling" => "sibling"
  | _ => type

/-- `MemStorage.createRelationship`: store the requested relationship under a
fresh id, then (for each of the four recognised types, tested in the source's
order) store the reciprocal relationship under a further fresh id.  Returns
the originally requested relationship. -/
def createRelationship (s : Store) (insertRelationship : InsertRelationship) :
    Relationship × Store :=
  let id := s.currentRelationshipId
  let relationship : Relationship := { toInsertRelationship := insertRelationship, id := id }
  let s := { s with relationships := mapSet s.relationships id relationship,
                    currentRelationshipId := id + 1 }
  let s :=
    if insertRelationship.type == "spouse" then
      let reciprocal : Relationship :=
        { id := s.currentRelationshipId, type := "spouse",
          personId := insertRelationship.relatedPersonId,
          relatedPersonId := insertRelationship.personId }
      { s with relationships := mapSet s.relationships reciprocal.id reciprocal,
               currentRelationshipId := s.currentRelationshipId + 1 }
    else s
  let s :=
    if insertRelationship.type == "parent" then
      let reciprocal : Relationship :=
        { id := s.currentRelationshipId, type := "child",
          personId := insertRelationship.relatedPersonId,
          relatedPersonId := insertRelationship.personId }
      { s with relationships := mapSet s.relationships reciprocal.id reciprocal,
               currentRelationshipId := s.currentRelationshipId + 1 }
    else s
  let s :=
    if insertRelationship.type == "child" then
      let reciprocal : Relationship :=
        { id := s.currentRelationshipId, type := "parent",
          personId := insertRelationship.relatedPersonId,
          relatedPersonId := insertRelationship.personId }
      { s with relationships := mapSet s.relationships reciprocal.id reciprocal,
               currentRelationshipId := s.currentRelationshipId + 1 }
    else s
  let s :=
    if insertRelationship.type == "sibling" then
      let reciprocal : Relationship :=
        { id := s.currentRelationshipId, type := "sibling",
          personId := insertRelationship.relatedPersonId,
          relatedPersonId := insertRelationship.personId }
      { s with relationships := mapSet s.relationships reciprocal.id reciprocal,
               currentRelationshipId := s.currentRelationshipId + 1 }
    else s
  (relationship, s)

/-- `MemStorage.deleteRelationship`: look the id up; if absent return
`false` and change nothing.  Otherwise delete every relationship whose
person ids are the looked-up relationship's swapped and whose type is the
reciprocal type, then delete the id itself; the returned boolean is the
result of that final `Map.delete`. -/
def deleteRelationship (s : Store) (id : Int) : Bool × Store :=
  match mapGet s.relationships id with
  | none => (false, s)
  | some relationship =>
    let reciprocalRelationships := (mapValues s.relationships).filter
      (fun rel =>
        rel.personId == relationship.relatedPersonId &&
        rel.relatedPersonId == relationship.personId &&
        rel.type == getReciprocalType relationship.type)
    let m1 := reciprocalRelationships.foldl (fun m rel => mapDelete m rel.id) s.relationships
    (mapHas m1 id, { s with relationships := mapDelete m1 id })

/-- `MemStorage.deletePerson`: delete (via `deleteRelationship`) every
relationship touching the id, then delete the person; the returned boolean
is the result of the final `Map.delete` on the persons map. -/
def deletePerson (s : Store) (id : Int) : Bool × Store :=
  let allRelationships := mapValues s.relationships
  let personRelationships := allRelationships.filter
    (fun r => r.personId == id || r.relatedPersonId == id)
  let s1 := personRelationships.foldl (fun st rel => (deleteRelationship st rel.id).2) s
  (mapHas s1.persons id, { s1 with persons := mapDelete s1.persons id })

/-! ### Specification-side predicates about stores -/

/-- `rel` touches the person id `id`. -/
def touches (rel : Relationship) (id : Int) : Prop :=
  rel.personId = id ∨ rel.relatedPersonId = id

instance (rel : Relationship) (id : Int) : Decidable (touches rel id) := by
  unfold touches; infer_instance

/-- `m` mirrors `r`: the reciprocal type, with person ids swapped.  This is
the filter used by `deleteRelationship`. -/
def mirrors (m r : Relationship) : Prop :=
  m.personId = r.relatedPersonId ∧ m.relatedPersonId = r.personId ∧
    m.type = getReciprocalType r.type

instance (m r : Relationship) : Decidable (mirrors m r) := by
  unfold mirrors; infer_instance

/-- The reciprocal-relationship invariant of the spec: every stored
relationship has a stored mirror of the reciprocal type in the opposite
direction. -/
def MirrorInv (s : Store) : Prop :=
  ∀ e ∈ s.relationships, ∃ e' ∈ s.relationships, mirrors e'.2 e.2

instance (s : Store) : Decidable (MirrorInv s) := by
  unfold MirrorInv; infer_instance

/-- The relationship types recognised by the store's reciprocal machinery. -/
def isCanonical (type : String) : Bool :=
  type == "parent" || type == "child" || type == "spouse" || type == "sibling"

/-- Well-formedness of a map keyed by record ids: keys are pairwise distinct
(JavaScript `Map` semantics) and each entry's key is its record's id (the
store only ever calls `set(id, record)` with `record.id = id`). -/
def WFmap (m : List (Int × α)) (idOf : α → Int) : Prop :=
  (m.map (·.1)).Nodup ∧ ∀ e ∈ m, e.1 = idOf e.2

/-- Well-formedness of a store state: both maps are well-formed. -/
def WF (s : Store) : Prop :=
  WFmap s.persons Person.id ∧ WFmap s.relationships Relationship.id

instance (m : List (Int × α)) (idOf : α → Int) : Decidable (WFmap m idOf) := by
  unfold WFmap
  exact instDecidableAnd

instance (s : Store) : Decidable (WF s) := by
  unfold WF; infer_instance

/-! ### Lemmas about the map embedding -/

theorem mapGet_nil {k : Int} : mapGet ([] : List (Int × α)) k = none := rfl

theorem mapGet_cons {e : Int × α} {m : List (Int × α)} {k : Int} :
    mapGet (e :: m) k = if e.1 = k then some e.2 else mapGet m k := by
  by_cases h : e.1 = k
  · rw [mapGet, List.find?_cons_of_pos _ (by simpa using h), if_pos h, Option.map_some']
  · rw [mapGet, List.find?_cons_of_neg _ (by simpa using h), if_neg h, mapGet]

theorem mapHas_cons {e : Int × α} {m : List (Int × α)} {k : Int} :
    mapHas (e :: m) k = (e.1 == k || mapHas m k) := by
  simp [mapHas]

theorem mapHas_iff {m : List (Int × α)} {k : Int} :
    mapHas m k = true ↔ ∃ e ∈ m, e.1 = k := by
  simp [mapHas]

theorem mapGet_isSome_eq_mapHas (m : List (Int × α)) (k : Int) :
    (mapGet m k).isSome = mapHas m k := by
  induction m with
  | nil => rfl
  | cons e m ih =>
    rw [mapGet_cons, mapHas_cons]
    by_cases h : e.1 = k
    · simp [h]
    · simp [h, ih]

theorem mapGet_eq_none_of_not_has {m : List (Int × α)} {k : Int}
    (h : mapHas m k ≠ true) : mapGet m k = none := by
  have := mapGet_isSome_eq_mapHas m k
  rw [eq_false_of_ne_true h] at this
  exact Option.not_isSome_iff_eq_none.mp (by simp [this])

theorem mapGet_mem {m : List (Int × α)} {k : Int} {v : α}
    (h : mapGet m k = some v) : (k, v) ∈ m := by
  induction m with
  | nil => simp [mapGet_nil] at h
  | cons e m ih =>
    rw [mapGet_cons] at h
    by_cases he : e.1 = k
    · rw [if_pos he] at h
      have hv : e.2 = v := Option.some.inj h
      have : e = (k, v) := by
        cases e
        cases he
        cases hv
        rfl
      rw [← this]
      exact List.mem_cons_self e m
    · rw [if_neg he] at h
      exact List.mem_cons_of_mem _ (ih h)

theorem mapGet_append (m m' : List (Int × α)) (k : Int) :
    mapGet (m ++ m') k = (mapGet m k).or (mapGet m' k) := by
  induction m with
  | nil => simp [mapGet_nil]
  | cons e m ih =>
    rw [List.cons_append, mapGet_cons, mapGet_cons]
    by_cases he : e.1 = k
    · simp [he]
    · simp [he, ih]

/-- The in-place overwrite pass of `mapSet`, characterised unconditionally. -/
theorem mapGet_overwrite (m : List (Int × α)) (k : Int) (v : α) (k' : Int) :
    mapGet (m.map (fun e => if e.1 == k then (k, v) else e)) k' =
      if k' = k then (if mapHas m k then some v else none) else mapGet m k' := by
  simp only [beq_iff_eq]
  induction m with
  | nil => by_cases hk : k' = k <;> simp [mapGet_nil, mapHas, hk]
  | cons e m ih =>
    rw [List.map_cons, mapGet_cons, mapGet_cons, mapHas_cons]
    by_cases he : e.1 = k
    · by_cases hk : k' = k
      · simp [he, hk]
      · simp [he, hk, Ne.symm hk, ih]
    · by_cases he' : e.1 = k'
      · have hk : ¬ k' = k := fun h => he (he'.trans h)
        simp [he, he', hk]
      · simp only [he, if_false, he', ih]
        simp [he]

theorem mapGet_mapSet (m : List (Int × α)) (k : Int) (v : α) (k' : Int) :
    mapGet (mapSet m k v) k' = if k' = k then some v else mapGet m k' := by
  by_cases hhas : mapHas m k = true
  · rw [mapSet, if_pos hhas, mapGet_overwrite, hhas]
    simp
  · rw [mapSet, if_neg hhas, mapGet_append]
    by_cases hk : k' = k
    · subst hk
      rw [mapGet_eq_none_of_not_has hhas, mapGet_cons]
      simp
    · rw [mapGet_cons]
      simp [Ne.symm hk, hk, mapGet_nil]

theorem keys_mapSet_of_has {m : List (Int × α)} {k : Int} (v : α)
    (h : mapHas m k = true) :
    (mapSet m k v).map (·.1) = m.map (·.1) := by
  rw [mapSet, if_pos h, List.map_map]
  apply List.map_congr_left
  intro e _
  by_cases he : e.1 = k
  · simp [he]
  · simp [he]

theorem mapSet_of_not_has {m : List (Int × α)} {k : Int} (v : α)
    (h : mapHas m k ≠ true) : mapSet m k v = m ++ [(k, v)] := by
  rw [mapSet, if_neg h]

theorem mapSet_mem {m : List (Int × α)} {k : Int} {v : α} {e : Int × α}
    (h : e ∈ mapSet m k v) : e ∈ m ∨ e = (k, v) := by
  by_cases hhas : mapHas m k = true
  · rw [mapSet, if_pos hhas] at h
    obtain ⟨f, hf, hfe⟩ := List.mem_map.mp h
    by_cases hfk : f.1 = k
    · right
      rw [← hfe]
      simp [hfk]
    · left
      rw [← hfe]
      simpa [hfk] using hf
  · rw [mapSet_of_not_has v hhas] at h
    rcases List.mem_append.mp h with h | h
    · exact Or.inl h
    · exact Or.inr (by simpa using h)

theorem mapDelete_sublist (m : List (Int × α)) (k : Int) :
    (mapDelete m k).Sublist m :=
  List.filter_sublist m

theorem mapDelete_of_not_has {m : List (Int × α)} {k : Int}
    (h : mapHas m k ≠ true) : mapDelete m k = m := by
  rw [mapDelete, List.filter_eq_self]
  intro e he
  have : e.1 ≠ k := fun hk => h (mapHas_iff.mpr ⟨e, he, hk⟩)
  simpa using this

/-- Folding `mapDelete` over a list of keys (projected by `f`) is a single
filter. -/
theorem foldl_mapDelete (f : β → Int) (L : List β) (m : List (Int × α)) :
    L.foldl (fun m b => mapDelete m (f b)) m =
      m.filter (fun e => !((L.map f).contains e.1)) := by
  induction L generalizing m with
  | nil => simp
  | cons b L ih =>
    rw [List.foldl_cons, ih, mapDelete, List.filter_filter]
    apply List.filter_congr
    intro e _
    by_cases h : e.1 = f b <;> simp [h]

theorem entry_eq_of_fst_eq {m : List (Int × α)} (hnd : (m.map (·.1)).Nodup)
    {e f : Int × α} (he : e ∈ m) (hf : f ∈ m) (h : e.1 = f.1) : e = f :=
  List.inj_on_of_nodup_map hnd he hf h

theorem WFmap_filter {m : List (Int × α)} {idOf : α → Int} (h : WFmap m idOf)
    (p : Int × α → Bool) : WFmap (m.filter p) idOf := by
  constructor
  · exact ((List.filter_sublist m).map (·.1)).nodup h.1
  · intro e he
    exact h.2 e (List.mem_of_mem_filter he)

/-- Two sublists of a duplicate-free list with the same members are equal. -/
theorem sublist_eq_of_nodup {l₁ l₂ l : List β} (h₁ : l₁.Sublist l)
    (h₂ : l₂.Sublist l) (hnd : l.Nodup) (hm : ∀ b, b ∈ l₁ ↔ b ∈ l₂) :
    l₁ = l₂ := by
  induction l generalizing l₁ l₂ with
  | nil =>
    rw [List.sublist_nil.mp h₁, List.sublist_nil.mp h₂]
  | cons x l ih =>
    have hx : x ∉ l := (List.nodup_cons.mp hnd).1
    have hnd' : l.Nodup := (List.nodup_cons.mp hnd).2
    cases h₁ with
    | cons _ h₁' =>
      cases h₂ with
      | cons _ h₂' => exact ih h₁' h₂' hnd' hm
      | cons₂ _ h₂' =>
        exact absurd (h₁'.subset ((hm x).mpr (List.mem_cons_self _ _))) hx
    | cons₂ _ h₁' =>
      rename_i t₁
      cases h₂ with
      | cons _ h₂' =>
        exact absurd (h₂'.subset ((hm x).mp (List.mem_cons_self _ _))) hx
      | cons₂ _ h₂' =>
        rename_i t₂
        have : t₁ = t₂ := by
          apply ih h₁' h₂' hnd'
          intro b
          constructor
          · intro hb
            have hbx : b ≠ x := fun hbe => hx (hbe ▸ h₁'.subset hb)
            rcases List.mem_cons.mp ((hm b).mp (List.mem_cons_of_mem _ hb)) with h | h
            · exact absurd h hbx
            · exact h
          · intro hb
            have hbx : b ≠ x := fun hbe => hx (hbe ▸ h₂'.subset hb)
            rcases List.mem_cons.mp ((hm b).mpr (List.mem_cons_of_mem _ hb)) with h | h
            · exact absurd h hbx
            · exact h
        rw [this]

/-! ### Effect lemmas for the relationship operations -/

theorem deleteRelationship_not_found {s : Store} {id : Int}
    (h : mapGet s.relationships id = none) : deleteRelationship s id = (false, s) := by
  simp [deleteRelationship, h]

theorem deleteRelationship_persons (s : Store) (id : Int) :
    (deleteRelationship s id).2.persons = s.persons := by
  unfold deleteRelationship
  split <;> rfl

theorem deleteRelationship_counters (s : Store) (id : Int) :
    (deleteRelationship s id).2.currentPersonId = s.currentPersonId ∧
      (deleteRelationship s id).2.currentRelationshipId = s.currentRelationshipId := by
  unfold deleteRelationship
  split <;> exact ⟨rfl, rfl⟩

/-- The full behaviour of `deleteRelationship` on a stored id: drop every
mirror of the looked-up relationship and the id itself; report `true` unless
the relationship is its own mirror (in which case the mirror pass has
already removed it and the final `Map.delete` misses). -/
theorem deleteRelationship_found {s : Store} {id : Int} {r : Relationship}
    (hWF : WFmap s.relationships Relationship.id)
    (h : mapGet s.relationships id = some r) :
    deleteRelationship s id =
      (!decide (mirrors r r),
       { s with relationships :=
           s.relationships.filter (fun e => !decide (mirrors e.2 r) && e.1 != id) }) := by
  have hmem : (id, r) ∈ s.relationships := mapGet_mem h
  have hcoh : r.id = id := (hWF.2 _ hmem).symm
  simp only [deleteRelationship, h]
  rw [foldl_mapDelete (fun rel : Relationship => rel.id)]
  set p : Relationship → Bool := fun rel =>
    rel.personId == r.relatedPersonId && rel.relatedPersonId == r.personId &&
      rel.type == getReciprocalType r.type with hp
  have hpdec : ∀ x : Relationship, p x = decide (mirrors x r) := by
    intro x
    rw [hp]
    by_cases hx : mirrors x r
    · obtain ⟨h1, h2, h3⟩ := hx
      simp [h1, h2, h3, mirrors]
    · rw [decide_eq_false hx]
      rw [mirrors] at hx
      push_neg at hx
      by_cases h1 : x.personId = r.relatedPersonId
      · by_cases h2 : x.relatedPersonId = r.personId
        · simp [h1, h2, hx h1 h2]
        · simp [h2]
      · simp [h1]
  set K : List Int :=
    (((mapValues s.relationships).filter p).map fun rel => rel.id) with hK
  have hmemK : ∀ e ∈ s.relationships, (K.contains e.1 = true ↔ mirrors e.2 r) := by
    intro e he
    rw [hK]
    constructor
    · intro hc
      have : e.1 ∈ ((mapValues s.relationships).filter p).map fun rel => rel.id := by
        simpa using hc
      obtain ⟨rel, hrel, hrelid⟩ := List.mem_map.mp this
      obtain ⟨hrelv, hrelp⟩ := List.mem_filter.mp hrel
      obtain ⟨f, hf, hfrel⟩ := List.mem_map.mp hrelv
      have hfid : f.1 = e.1 := by rw [hWF.2 f hf, hfrel, hrelid]
      have : f = e := entry_eq_of_fst_eq hWF.1 hf he hfid
      rw [← decide_eq_true_eq (p := mirrors e.2 r), ← hpdec]
      rw [← this, hfrel]
      exact hrelp
    · intro hm
      have hpe : p e.2 = true := by rw [hpdec, decide_eq_true hm]
      have hev : e.2 ∈ mapValues s.relationships := List.mem_map.mpr ⟨e, he, rfl⟩
      have hef : e.2 ∈ (mapValues s.relationships).filter p :=
        List.mem_filter.mpr ⟨hev, hpe⟩
      have : e.2.id ∈ ((mapValues s.relationships).filter p).map fun rel => rel.id :=
        List.mem_map.mpr ⟨e.2, hef, rfl⟩
      rw [hWF.2 e he]
      simpa using this
  have hm1 : s.relationships.filter (fun e => !K.contains e.1) =
      s.relationships.filter (fun e => !decide (mirrors e.2 r)) := by
    apply List.filter_congr
    intro e he
    have := hmemK e he
    by_cases hmr : mirrors e.2 r
    · rw [decide_eq_true hmr, this.mpr hmr]
    · rw [decide_eq_false hmr]
      have : K.contains e.1 = false := by
        rcases Bool.eq_false_or_eq_true (K.contains e.1) with hc | hc
        · exact absurd (this.mp hc) hmr
        · exact hc
      rw [this]
  rw [hm1]
  have hfinal : mapDelete (s.relationships.filter fun e => !decide (mirrors e.2 r)) id =
      s.relationships.filter (fun e => !decide (mirrors e.2 r) && e.1 != id) := by
    rw [mapDelete, List.filter_filter]
    apply List.filter_congr
    intro e _
    exact Bool.and_comm _ _
  have hhas : mapHas (s.relationships.filter fun e => !decide (mirrors e.2 r)) id =
      !decide (mirrors r r) := by
    by_cases hrr : mirrors r r
    · rw [decide_eq_true hrr, Bool.not_true]
      rcases Bool.eq_false_or_eq_true
        (mapHas (s.relationships.filter fun e => !decide (mirrors e.2 r)) id) with hc | hc
      swap
      · exact hc
      · obtain ⟨e, hef, heid⟩ := mapHas_iff.mp hc
        obtain ⟨hee, hep⟩ := List.mem_filter.mp hef
        have : e = (id, r) := entry_eq_of_fst_eq hWF.1 hee hmem (by rw [heid])
        rw [this] at hep
        simp [hrr] at hep
    · rw [decide_eq_false hrr, Bool.not_false]
      apply mapHas_iff.mpr
      refine ⟨(id, r), List.mem_filter.mpr ⟨hmem, ?_⟩, rfl⟩
      simp [hrr]
  rw [hfinal, hhas]

theorem touchesB_eq (rel : Relationship) (id : Int) :
    (rel.personId == id || rel.relatedPersonId == id) = decide (touches rel id) := by
  by_cases h1 : rel.personId = id
  · simp [touches, h1]
  · by_cases h2 : rel.relatedPersonId = id <;> simp [touches, h1, h2]

theorem WFmap_of_sublist {m M : List (Int × α)} {idOf : α → Int}
    (h : m.Sublist M) (hM : WFmap M idOf) : WFmap m idOf :=
  ⟨(h.map (·.1)).nodup hM.1, fun e he => hM.2 e (h.subset he)⟩

theorem mapHas_false_of_sublist {m' m : List (Int × α)} {k : Int}
    (h : m'.Sublist m) (hm : mapHas m k = false) : mapHas m' k = false := by
  rcases Bool.eq_false_or_eq_true (mapHas m' k) with hc | hc
  swap
  · exact hc
  · obtain ⟨e, he, hek⟩ := mapHas_iff.mp hc
    rw [mapHas_iff.mpr ⟨e, h.subset he, hek⟩] at hm
    cases hm

theorem deleteRelationship_rels_sublist (st : Store) (k : Int) :
    (deleteRelationship st k).2.relationships.Sublist st.relationships := by
  unfold deleteRelationship
  split
  · exact List.Sublist.refl _
  · refine (mapDelete_sublist _ _).trans ?_
    rw [foldl_mapDelete (fun rel : Relationship => rel.id)]
    exact List.filter_sublist _

/-! ### The cascading delete in `deletePerson` -/

theorem foldDel_persons (L : List Relationship) (st : Store) :
    (L.foldl (fun st rel => (deleteRelationship st rel.id).2) st).persons = st.persons := by
  induction L generalizing st with
  | nil => rfl
  | cons rel L ih => rw [List.foldl_cons, ih, deleteRelationship_persons]

theorem foldDel_counters (L : List Relationship) (st : Store) :
    (L.foldl (fun st rel => (deleteRelationship st rel.id).2) st).currentPersonId =
        st.currentPersonId ∧
      (L.foldl (fun st rel => (deleteRelationship st rel.id).2) st).currentRelationshipId =
        st.currentRelationshipId := by
  induction L generalizing st with
  | nil => exact ⟨rfl, rfl⟩
  | cons rel L ih =>
    rw [List.foldl_cons]
    refine ⟨((ih _).1).trans ?_, ((ih _).2).trans ?_⟩
    · exact (deleteRelationship_counters st rel.id).1
    · exact (deleteRelationship_counters st rel.id).2

theorem foldDel_sublist (L : List Relationship) (st : Store) :
    (L.foldl (fun st rel => (deleteRelationship st rel.id).2) st).relationships.Sublist
      st.relationships := by
  induction L generalizing st with
  | nil => exact List.Sublist.refl _
  | cons rel L ih =>
    rw [List.foldl_cons]
    exact (ih _).trans (deleteRelationship_rels_sublist st rel.id)

/-- Entries not touching `id` survive the cascading delete, provided every
relationship in the worklist is a stored record touching `id`. -/
theorem foldDel_preserves {M : List (Int × Relationship)}
    (hM : WFmap M Relationship.id) (id : Int) :
    ∀ (L : List Relationship) (st : Store), st.relationships.Sublist M →
      (∀ rel ∈ L, (rel.id, rel) ∈ M ∧ touches rel id) →
      ∀ e ∈ st.relationships, ¬ touches e.2 id →
        e ∈ (L.foldl (fun st rel => (deleteRelationship st rel.id).2) st).relationships := by
  intro L
  induction L with
  | nil => intro st _ _ e he _; exact he
  | cons rel L ih =>
    intro st hsub hL e he hnt
    rw [List.foldl_cons]
    have hWFst : WFmap st.relationships Relationship.id := WFmap_of_sublist hsub hM
    have hrelM : (rel.id, rel) ∈ M := (hL rel (List.mem_cons_self _ _)).1
    have hrelT : touches rel id := (hL rel (List.mem_cons_self _ _)).2
    have hL' : ∀ r ∈ L, (r.id, r) ∈ M ∧ touches r id :=
      fun r hr => hL r (List.mem_cons_of_mem _ hr)
    cases hget : mapGet st.relationships rel.id with
    | none =>
      have hst : (deleteRelationship st rel.id).2 = st := by
        rw [deleteRelationship_not_found hget]
      rw [hst]
      exact ih st hsub hL' e he hnt
    | some r =>
      have hfound := deleteRelationship_found hWFst hget
      have hrmem : (rel.id, r) ∈ st.relationships := mapGet_mem hget
      have hrrel : r = rel := by
        have := entry_eq_of_fst_eq hM.1 (hsub.subset hrmem) hrelM rfl
        exact congrArg Prod.snd this
      have hrels' : (deleteRelationship st rel.id).2.relationships =
          st.relationships.filter (fun e => !decide (mirrors e.2 r) && e.1 != rel.id) := by
        rw [hfound]
      have hsurv : e ∈ (deleteRelationship st rel.id).2.relationships := by
        rw [hrels']
        apply List.mem_filter.mpr
        refine ⟨he, ?_⟩
        have h1 : ¬ mirrors e.2 r := by
          intro hmir
          apply hnt
          rw [hrrel] at hmir
          rcases hrelT with ht | ht
          · exact Or.inr (hmir.2.1.trans ht)
          · exact Or.inl (hmir.1.trans ht)
        have h2 : e.1 ≠ rel.id := by
          intro heq
          have : e = (rel.id, rel) :=
            entry_eq_of_fst_eq hM.1 (hsub.subset he) hrelM heq
          apply hnt
          rw [this]
          exact hrelT
        simp [h1, h2]
      have hsub' : (deleteRelationship st rel.id).2.relationships.Sublist M :=
        (deleteRelationship_rels_sublist st rel.id).trans hsub
      exact ih _ hsub' hL' e hsurv hnt

/-- After the cascading delete, no worklist relationship's key remains. -/
theorem foldDel_removes :
    ∀ (L : List Relationship) (st : Store), ∀ rel ∈ L,
      mapHas (L.foldl (fun st rel => (deleteRelationship st rel.id).2) st).relationships
        rel.id = false := by
  intro L
  induction L with
  | nil => intro st rel h; cases h
  | cons rel₀ L ih =>
    intro st rel hrel
    rw [List.foldl_cons]
    rcases List.mem_cons.mp hrel with rfl | hrel'
    · have hgone : mapHas (deleteRelationship st rel.id).2.relationships rel.id = false := by
        unfold deleteRelationship
        cases hget : mapGet st.relationships rel.id with
        | none =>
          simp only [hget]
          have := mapGet_isSome_eq_mapHas st.relationships rel.id
          rw [hget] at this
          exact this.symm
        | some r =>
          simp only [hget]
          rcases Bool.eq_false_or_eq_true (mapHas (mapDelete _ rel.id) rel.id) with hc | hc
          swap
          · exact hc
          · obtain ⟨e, he, hek⟩ := mapHas_iff.mp hc
            have := List.mem_filter.mp he
            rw [hek] at this
            simp at this
      exact mapHas_false_of_sublist (foldDel_sublist L _) hgone
    · exact ih _ rel hrel'

/-- `MemStorage.deletePerson` in one equation: drop the person entry and
every relationship entry touching the id, and report whether the person was
stored.  The relationship map changes regardless of whether the person
exists. -/
theorem deletePerson_spec {s : Store} (hWF : WF s) (id : Int) :
    deletePerson s id =
      (mapHas s.persons id,
       { s with persons := mapDelete s.persons id,
                relationships :=
                  s.relationships.filter (fun e => !decide (touches e.2 id)) }) := by
  unfold deletePerson
  set L : List Relationship := (mapValues s.relationships).filter
    (fun r => r.personId == id || r.relatedPersonId == id) with hLdef
  set s1 := L.foldl (fun st rel => (deleteRelationship st rel.id).2) s with hs1
  have hL : ∀ rel ∈ L, (rel.id, rel) ∈ s.relationships ∧ touches rel id := by
    intro rel hrel
    obtain ⟨hv, hpred⟩ := List.mem_filter.mp hrel
    obtain ⟨f, hf, hfrel⟩ := List.mem_map.mp hv
    have hfid : f.1 = rel.id := by rw [hWF.2.2 f hf, hfrel]
    constructor
    · rw [← hfid, ← hfrel]
      exact hf
    · rw [touchesB_eq] at hpred
      exact of_decide_eq_true hpred
  have hpersons : s1.persons = s.persons := foldDel_persons L s
  have hcounters := foldDel_counters L s
  have hrels : s1.relationships =
      s.relationships.filter (fun e => !decide (touches e.2 id)) := by
    apply sublist_eq_of_nodup (foldDel_sublist L s) (List.filter_sublist _)
      (hWF.2.1.of_map _)
    intro e
    constructor
    · intro he
      have heM : e ∈ s.relationships := (foldDel_sublist L s).subset he
      apply List.mem_filter.mpr
      refine ⟨heM, ?_⟩
      have hnt : ¬ touches e.2 id := by
        intro ht
        have hev : e.2 ∈ mapValues s.relationships := List.mem_map.mpr ⟨e, heM, rfl⟩
        have heL : e.2 ∈ L := by
          rw [hLdef]
          apply List.mem_filter.mpr
          refine ⟨hev, ?_⟩
          rw [touchesB_eq]
          exact decide_eq_true ht
        have := foldDel_removes L s e.2 heL
        rw [← hs1] at this
        have hhas : mapHas s1.relationships e.2.id = true := by
          apply mapHas_iff.mpr
          exact ⟨e, he, (hWF.2.2 e heM).symm ▸ rfl⟩
        rw [hhas] at this
        cases this
      simp [hnt]
    · intro he
      obtain ⟨heM, hp⟩ := List.mem_filter.mp he
      have hnt : ¬ touches e.2 id := by
        intro ht
        rw [decide_eq_true ht] at hp
        cases hp
      exact foldDel_preserves hWF.2 id L s (List.Sublist.refl _) hL e heM hnt
  rw [← hs1] at hcounters
  simp only [Prod.mk.injEq, Store.mk.injEq]
  rw [hpersons, hrels, hcounters.1, hcounters.2]
  exact ⟨rfl, rfl, rfl, rfl, rfl⟩

/-! ### Creation and update -/

/-- `createRelationship` in one equation: the requested relationship is
stored under the next id and returned; for the four recognised types a
reciprocal relationship (reciprocal type, person ids swapped) is stored
under the following id; for any other type nothing else is stored. -/
theorem createRelationship_spec (s : Store) (ir : InsertRelationship) :
    createRelationship s ir =
      ({ toInsertRelationship := ir, id := s.currentRelationshipId },
       if isCanonical ir.type then
         { s with
           relationships :=
             mapSet
               (mapSet s.relationships s.currentRelationshipId
                 { toInsertRelationship := ir, id := s.currentRelationshipId })
               (s.currentRelationshipId + 1)
               { id := s.currentRelationshipId + 1, type := getReciprocalType ir.type,
                 personId := ir.relatedPersonId, relatedPersonId := ir.personId },
           currentRelationshipId := s.currentRelationshipId + 1 + 1 }
       else
         { s with
           relationships :=
             mapSet s.relationships s.currentRelationshipId
               { toInsertRelationship := ir, id := s.currentRelationshipId },
           currentRelationshipId := s.currentRelationshipId + 1 }) := by
  by_cases h1 : ir.type = "spouse"
  · simp [createRelationship, isCanonical, getReciprocalType, h1]
  · by_cases h2 : ir.type = "parent"
    · simp [createRelationship, isCanonical, getReciprocalType, h2]
    · by_cases h3 : ir.type = "child"
      · simp [createRelationship, isCanonical, getReciprocalType, h3]
      · by_cases h4 : ir.type = "sibling"
        · simp [createRelationship, isCanonical, getReciprocalType, h4]
        · simp [createRelationship, isCanonical, h1, h2, h3, h4]

theorem createPerson_spec (s : Store) (ip : InsertPerson) :
    createPerson s ip =
      ({ toInsertPerson := ip, id := s.currentPersonId },
       { s with
         persons :=
           (mapSet s.persons s.currentPersonId
             { toInsertPerson := ip, id := s.currentPersonId }),
         currentPersonId := s.currentPersonId + 1 }) := rfl

theorem updatePerson_not_found {s : Store} {id : Int} (up : InsertPerson)
    (h : mapGet s.persons id = none) : updatePerson s id up = (none, s) := by
  simp [updatePerson, h]

theorem updatePerson_found {s : Store} {id : Int} {p₀ : Person} (up : InsertPerson)
    (h : mapGet s.persons id = some p₀) :
    (updatePerson s id up).1 = some { toInsertPerson := up, id := id } ∧
      (updatePerson s id up).2.persons = mapSet s.persons id { toInsertPerson := up, id := id } ∧
      (updatePerson s id up).2.relationships = s.relationships ∧
      (updatePerson s id up).2.currentPersonId = s.currentPersonId ∧
      (updatePerson s id up).2.currentRelationshipId = s.currentRelationshipId := by
  simp [updatePerson, h]

/-! ### Reachable store states -/

/-- The relationship ids assigned by one `createRelationship` call on `s`
(specification-side bookkeeping). -/
def assignedRelIds (s : Store) (ir : InsertRelationship) : List Int :=
  if isCanonical ir.type then [s.currentRelationshipId, s.currentRelationshipId + 1]
  else [s.currentRelationshipId]

/-- States reachable from the constructor state by the five mutating store
operations, together with the histories of person and relationship ids
assigned along the way (in assignment order). -/
inductive Reach : Store → List Int → List Int → Prop
  | init : Reach emptyStore [] []
  | createP (s : Store) (ph rh : List Int) (ip : InsertPerson) :
      Reach s ph rh → Reach (createPerson s ip).2 (ph ++ [s.currentPersonId]) rh
  | updateP (s : Store) (ph rh : List Int) (id : Int) (ip : InsertPerson) :
      Reach s ph rh → Reach (updatePerson s id ip).2 ph rh
  | deleteP (s : Store) (ph rh : List Int) (id : Int) :
      Reach s ph rh → Reach (deletePerson s id).2 ph rh
  | createR (s : Store) (ph rh : List Int) (ir : InsertRelationship) :
      Reach s ph rh → Reach (createRelationship s ir).2 ph (rh ++ assignedRelIds s ir)
  | deleteR (s : Store) (ph rh : List Int) (id : Int) :
      Reach s ph rh → Reach (deleteRelationship s id).2 ph rh

/-- A store state reachable by some operation sequence. -/
def Reachable (s : Store) : Prop := ∃ ph rh, Reach s ph rh

/-- The inductive invariant of reachable states: well-formed maps, assigned
ids strictly increasing, starting at 1 and below the current counters, and
stored keys drawn from the assigned ids. -/
def StoreInv (s : Store) (ph rh : List Int) : Prop :=
  WF s ∧ ph.Pairwise (· < ·) ∧ rh.Pairwise (· < ·) ∧
    (∀ a ∈ ph, 1 ≤ a ∧ a < s.currentPersonId) ∧
    (∀ a ∈ rh, 1 ≤ a ∧ a < s.currentRelationshipId) ∧
    (∀ e ∈ s.persons, e.1 ∈ ph) ∧ (∀ e ∈ s.relationships, e.1 ∈ rh) ∧
    1 ≤ s.currentPersonId ∧ 1 ≤ s.currentRelationshipId

theorem StoreInv_init : StoreInv emptyStore [] [] := by
  simp [StoreInv, WF, WFmap, emptyStore]

theorem StoreInv_createP {s : Store} {ph rh : List Int} (hi : StoreInv s ph rh)
    (ip : InsertPerson) :
    StoreInv (createPerson s ip).2 (ph ++ [s.currentPersonId]) rh := by
  obtain ⟨⟨hWFp, hWFr⟩, hphp, hrhp, hphb, hrhb, hpk, hrk, hc1, hc2⟩ := hi
  have hfresh : mapHas s.persons s.currentPersonId ≠ true := by
    intro hhas
    obtain ⟨e, he, hek⟩ := mapHas_iff.mp hhas
    have := (hphb _ (hpk e he)).2
    rw [hek] at this
    exact lt_irrefl _ this
  have hset : (createPerson s ip).2.persons =
      s.persons ++ [(s.currentPersonId, { toInsertPerson := ip, id := s.currentPersonId })] :=
    mapSet_of_not_has _ hfresh
  have hcp : (createPerson s ip).2.currentPersonId = s.currentPersonId + 1 := rfl
  have hcr : (createPerson s ip).2.currentRelationshipId = s.currentRelationshipId := rfl
  have hr : (createPerson s ip).2.relationships = s.relationships := rfl
  refine ⟨⟨⟨?_, ?_⟩, hWFr.1, hWFr.2⟩, ?_, hrhp, ?_, ?_, ?_, ?_, ?_, hc2⟩
  · rw [hset, List.map_append, List.nodup_append]
    refine ⟨hWFp.1, List.nodup_singleton _, ?_⟩
    intro a ha hb
    have hb' : a = s.currentPersonId := by simpa using hb
    obtain ⟨e, he, hea⟩ := List.mem_map.mp ha
    rw [hb'] at hea
    exact hfresh (mapHas_iff.mpr ⟨e, he, hea⟩)
  · rw [hset]
    intro e he
    rcases List.mem_append.mp he with he | he
    · exact hWFp.2 e he
    · have : e = (s.currentPersonId, { toInsertPerson := ip, id := s.currentPersonId }) := by
        simpa using he
      rw [this]
  · rw [List.pairwise_append]
    refine ⟨hphp, List.pairwise_singleton _ _, ?_⟩
    intro a ha b hb
    have hb' : b = s.currentPersonId := by simpa using hb
    rw [hb']
    exact (hphb a ha).2
  · intro a ha
    rw [hcp]
    rcases List.mem_append.mp ha with ha | ha
    · exact ⟨(hphb a ha).1, lt_trans (hphb a ha).2 (lt_add_one _)⟩
    · have : a = s.currentPersonId := by simpa using ha
      rw [this]
      exact ⟨hc1, lt_add_one _⟩
  · intro a ha
    rw [hcr]
    exact hrhb a ha
  · rw [hset]
    intro e he
    rcases List.mem_append.mp he with he | he
    · exact List.mem_append.mpr (Or.inl (hpk e he))
    · apply List.mem_append.mpr
      right
      have : e = (s.currentPersonId, { toInsertPerson := ip, id := s.currentPersonId }) := by
        simpa using he
      rw [this]
      exact List.mem_singleton.mpr rfl
  · rw [hr]
    intro e he
    exact hrk e he
  · rw [hcp]
    exact le_trans hc1 (le_of_lt (lt_add_one _))

theorem StoreInv_updateP {s : Store} {ph rh : List Int} (hi : StoreInv s ph rh)
    (id : Int) (ip : InsertPerson) :
    StoreInv (updatePerson s id ip).2 ph rh := by
  obtain ⟨⟨hWFp, hWFr⟩, hphp, hrhp, hphb, hrhb, hpk, hrk, hc1, hc2⟩ := hi
  cases hget : mapGet s.persons id with
  | none =>
    have : updatePerson s id ip = (none, s) := updatePerson_not_found ip hget
    rw [this]
    exact ⟨⟨⟨hWFp.1, hWFp.2⟩, hWFr⟩, hphp, hrhp, hphb, hrhb, hpk, hrk, hc1, hc2⟩
  | some p₀ =>
    obtain ⟨-, hpers, hrels, hcp, hcr⟩ := updatePerson_found (s := s) ip hget
    have hhas : mapHas s.persons id = true := by
      have := mapGet_isSome_eq_mapHas s.persons id
      rw [hget] at this
      exact this.symm
    have hkeys : (updatePerson s id ip).2.persons.map (·.1) = s.persons.map (·.1) := by
      rw [hpers]
      exact keys_mapSet_of_has _ hhas
    refine ⟨⟨⟨?_, ?_⟩, ?_⟩, hphp, hrhp, ?_, ?_, ?_, ?_, ?_, ?_⟩
    · rw [hkeys]; exact hWFp.1
    · rw [hpers]
      intro e he
      rcases mapSet_mem he with he | he
      · exact hWFp.2 e he
      · rw [he]
    · rw [hrels]; exact hWFr
    · intro a ha; rw [hcp]; exact hphb a ha
    · intro a ha; rw [hcr]; exact hrhb a ha
    · intro e he
      have : e.1 ∈ (updatePerson s id ip).2.persons.map (·.1) := List.mem_map.mpr ⟨e, he, rfl⟩
      rw [hkeys] at this
      obtain ⟨f, hf, hfe⟩ := List.mem_map.mp this
      rw [← hfe]
      exact hpk f hf
    · rw [hrels]; exact hrk
    · rw [hcp]; exact hc1
    · rw [hcr]; exact hc2

theorem StoreInv_deleteP {s : Store} {ph rh : List Int} (hi : StoreInv s ph rh)
    (id : Int) : StoreInv (deletePerson s id).2 ph rh := by
  obtain ⟨hWF, hphp, hrhp, hphb, hrhb, hpk, hrk, hc1, hc2⟩ := hi
  have hspec := deletePerson_spec hWF id
  have hpers : (deletePerson s id).2.persons = mapDelete s.persons id := by rw [hspec]
  have hrels : (deletePerson s id).2.relationships =
      s.relationships.filter (fun e => !decide (touches e.2 id)) := by rw [hspec]
  have hcp : (deletePerson s id).2.currentPersonId = s.currentPersonId := by rw [hspec]
  have hcr : (deletePerson s id).2.currentRelationshipId = s.currentRelationshipId := by
    rw [hspec]
  refine ⟨⟨?_, ?_⟩, hphp, hrhp, ?_, ?_, ?_, ?_, ?_, ?_⟩
  · rw [hpers]
    exact WFmap_of_sublist (mapDelete_sublist _ _) hWF.1
  · rw [hrels]
    exact WFmap_of_sublist (List.filter_sublist _) hWF.2
  · intro a ha; rw [hcp]; exact hphb a ha
  · intro a ha; rw [hcr]; exact hrhb a ha
  · rw [hpers]
    intro e he
    exact hpk e ((mapDelete_sublist _ _).subset he)
  · rw [hrels]
    intro e he
    exact hrk e ((List.filter_sublist _).subset he)
  · rw [hcp]; exact hc1
  · rw [hcr]; exact hc2

theorem StoreInv_deleteR {s : Store} {ph rh : List Int} (hi : StoreInv s ph rh)
    (id : Int) : StoreInv (deleteRelationship s id).2 ph rh := by
  obtain ⟨hWF, hphp, hrhp, hphb, hrhb, hpk, hrk, hc1, hc2⟩ := hi
  have hpers := deleteRelationship_persons s id
  have hcnt := deleteRelationship_counters s id
  have hsub := deleteRelationship_rels_sublist s id
  refine ⟨⟨?_, WFmap_of_sublist hsub hWF.2⟩, hphp, hrhp, ?_, ?_, ?_, ?_, ?_, ?_⟩
  · rw [hpers]; exact hWF.1
  · intro a ha; rw [hcnt.1]; exact hphb a ha
  · intro a ha; rw [hcnt.2]; exact hrhb a ha
  · rw [hpers]; exact hpk
  · intro e he; exact hrk e (hsub.subset he)
  · rw [hcnt.1]; exact hc1
  · rw [hcnt.2]; exact hc2

theorem StoreInv_createR {s : Store} {ph rh : List Int} (hi : StoreInv s ph rh)
    (ir : InsertRelationship) :
    StoreInv (createRelationship s ir).2 ph (rh ++ assignedRelIds s ir) := by
  obtain ⟨⟨hWFp, hWFr⟩, hphp, hrhp, hphb, hrhb, hpk, hrk, hc1, hc2⟩ := hi
  have hfresh : ∀ d : Int, 0 ≤ d → mapHas s.relationships (s.currentRelationshipId + d) ≠ true := by
    intro d hd hhas
    obtain ⟨e, he, hek⟩ := mapHas_iff.mp hhas
    have h1 := (hrhb _ (hrk e he)).2
    rw [hek] at h1
    omega
  have hfresh0 : mapHas s.relationships s.currentRelationshipId ≠ true := by
    have := hfresh 0 le_rfl
    simpa using this
  have hsnd := congrArg Prod.snd (createRelationship_spec s ir)
  by_cases hcan : isCanonical ir.type = true
  · rw [if_pos hcan] at hsnd
    set r₁ : Relationship := { toInsertRelationship := ir, id := s.currentRelationshipId }
      with hr₁
    set r₂ : Relationship :=
      { id := s.currentRelationshipId + 1, type := getReciprocalType ir.type,
        personId := ir.relatedPersonId, relatedPersonId := ir.personId } with hr₂
    have hstep1 : mapSet s.relationships s.currentRelationshipId r₁ =
        s.relationships ++ [(s.currentRelationshipId, r₁)] :=
      mapSet_of_not_has _ hfresh0
    have hfresh1 : mapHas (s.relationships ++ [(s.currentRelationshipId, r₁)])
        (s.currentRelationshipId + 1) ≠ true := by
      intro hhas
      obtain ⟨e, he, hek⟩ := mapHas_iff.mp hhas
      rcases List.mem_append.mp he with he | he
      · have h1 := (hrhb _ (hrk e he)).2
        rw [hek] at h1
        omega
      · have : e = (s.currentRelationshipId, r₁) := by simpa using he
        rw [this] at hek
        simp at hek
    have hrels : (createRelationship s ir).2.relationships =
        s.relationships ++ [(s.currentRelationshipId, r₁), (s.currentRelationshipId + 1, r₂)] := by
      rw [hsnd]
      show mapSet (mapSet s.relationships s.currentRelationshipId r₁)
          (s.currentRelationshipId + 1) r₂ = _
      rw [hstep1, mapSet_of_not_has _ hfresh1, List.append_assoc]
      rfl
    have hcrr : (createRelationship s ir).2.currentRelationshipId =
        s.currentRelationshipId + 1 + 1 := by rw [hsnd]
    have hcpp : (createRelationship s ir).2.currentPersonId = s.currentPersonId := by
      rw [hsnd]
    have hpp : (createRelationship s ir).2.persons = s.persons := by rw [hsnd]
    have hids : assignedRelIds s ir =
        [s.currentRelationshipId, s.currentRelationshipId + 1] := by
      rw [assignedRelIds, if_pos hcan]
    refine ⟨⟨?_, ⟨?_, ?_⟩⟩, hphp, ?_, ?_, ?_, ?_, ?_, ?_, ?_⟩
    · rw [hpp]; exact hWFp
    · rw [hrels, List.map_append, List.nodup_append]
      refine ⟨hWFr.1, ?_, ?_⟩
      · simp only [List.map_cons, List.map_nil]
        refine List.nodup_cons.mpr ⟨?_, List.nodup_singleton _⟩
        intro hmem
        simp at hmem
      · intro a ha hb
        obtain ⟨e, he, hea⟩ := List.mem_map.mp ha
        have h1 := (hrhb _ (hrk e he)).2
        rw [hea] at h1
        have hb' : a = s.currentRelationshipId ∨ a = s.currentRelationshipId + 1 := by
          simpa using hb
        rcases hb' with rfl | rfl <;> omega
    · rw [hrels]
      intro e he
      rcases List.mem_append.mp he with he | he
      · exact hWFr.2 e he
      · rcases List.mem_cons.mp he with he | he
        · rw [he]
        · have : e = (s.currentRelationshipId + 1, r₂) := by simpa using he
          rw [this]
    · rw [hids, List.pairwise_append]
      refine ⟨hrhp, ?_, ?_⟩
      · refine List.pairwise_cons.mpr ⟨?_, List.pairwise_singleton _ _⟩
        intro b hb
        have : b = s.currentRelationshipId + 1 := by simpa using hb
        omega
      · intro a ha b hb
        have h1 := (hrhb a ha).2
        have hb' : b = s.currentRelationshipId ∨ b = s.currentRelationshipId + 1 := by
          simpa using hb
        rcases hb' with rfl | rfl <;> omega
    · intro a ha; rw [hcpp]; exact hphb a ha
    · intro a ha
      rw [hcrr]
      rcases List.mem_append.mp ha with ha | ha
      · have := hrhb a ha
        exact ⟨this.1, by omega⟩
      · rw [hids] at ha
        rcases List.mem_cons.mp ha with rfl | ha
        · exact ⟨hc2, by omega⟩
        · have : a = s.currentRelationshipId + 1 := by simpa using ha
          rw [this]
          exact ⟨by omega, by omega⟩
    · rw [hpp]; exact hpk
    · rw [hrels, hids]
      intro e he
      rcases List.mem_append.mp he with he | he
      · exact List.mem_append.mpr (Or.inl (hrk e he))
      · apply List.mem_append.mpr
        right
        rcases List.mem_cons.mp he with he | he
        · rw [he]
          exact List.mem_cons_self _ _
        · have : e = (s.currentRelationshipId + 1, r₂) := by simpa using he
          rw [this]
          simp
    · rw [hcpp]; exact hc1
    · rw [hcrr]; omega
  · rw [if_neg hcan] at hsnd
    set r₁ : Relationship := { toInsertRelationship := ir, id := s.currentRelationshipId }
      with hr₁
    have hrels : (createRelationship s ir).2.relationships =
        s.relationships ++ [(s.currentRelationshipId, r₁)] := by
      rw [hsnd]
      show mapSet s.relationships s.currentRelationshipId r₁ = _
      exact mapSet_of_not_has _ hfresh0
    have hcrr : (createRelationship s ir).2.currentRelationshipId =
        s.currentRelationshipId + 1 := by rw [hsnd]
    have hcpp : (createRelationship s ir).2.currentPersonId = s.currentPersonId := by
      rw [hsnd]
    have hpp : (createRelationship s ir).2.persons = s.persons := by rw [hsnd]
    have hids : assignedRelIds s ir = [s.currentRelationshipId] := by
      rw [assignedRelIds, if_neg hcan]
    refine ⟨⟨?_, ⟨?_, ?_⟩⟩, hphp, ?_, ?_, ?_, ?_, ?_, ?_, ?_⟩
    · rw [hpp]; exact hWFp
    · rw [hrels, List.map_append, List.nodup_append]
      refine ⟨hWFr.1, List.nodup_singleton _, ?_⟩
      intro a ha hb
      obtain ⟨e, he, hea⟩ := List.mem_map.mp ha
      have h1 := (hrhb _ (hrk e he)).2
      rw [hea] at h1
      have hb' : a = s.currentRelationshipId := by simpa using hb
      omega
    · rw [hrels]
      intro e he
      rcases List.mem_append.mp he with he | he
      · exact hWFr.2 e he
      · have : e = (s.currentRelationshipId, r₁) := by simpa using he
        rw [this]
    · rw [hids, List.pairwise_append]
      refine ⟨hrhp, List.pairwise_singleton _ _, ?_⟩
      intro a ha b hb
      have hb' : b = s.currentRelationshipId := by simpa using hb
      rw [hb']
      exact (hrhb a ha).2
    · intro a ha; rw [hcpp]; exact hphb a ha
    · intro a ha
      rw [hcrr]
      rcases List.mem_append.mp ha with ha | ha
      · have := hrhb a ha
        exact ⟨this.1, by omega⟩
      · rw [hids] at ha
        have : a = s.currentRelationshipId := by simpa using ha
        rw [this]
        exact ⟨hc2, by omega⟩
    · rw [hpp]; exact hpk
    · rw [hrels, hids]
      intro e he
      rcases List.mem_append.mp he with he | he
      · exact List.mem_append.mpr (Or.inl (hrk e he))
      · apply List.mem_append.mpr
        right
        have : e = (s.currentRelationshipId, r₁) := by simpa using he
        rw [this]
        simp
    · rw [hcpp]; exact hc1
    · rw [hcrr]; omega

/-- The master invariant holds at every reachable state. -/
theorem reach_master_inv {s : Store} {ph rh : List Int} (h : Reach s ph rh) :
    StoreInv s ph rh := by
  induction h with
  | init => exact StoreInv_init
  | createP s ph rh ip h ih => exact StoreInv_createP ih ip
  | updateP s ph rh id ip h ih => exact StoreInv_updateP ih id ip
  | deleteP s ph rh id h ih => exact StoreInv_deleteP ih id
  | createR s ph rh ir h ih => exact StoreInv_createR ih ir
  | deleteR s ph rh id h ih => exact StoreInv_deleteR ih id

theorem Reachable_WF {s : Store} (h : Reachable s) : WF s := by
  obtain ⟨ph, rh, hr⟩ := h
  exact (reach_master_inv hr).1

theorem Reachable_keys_lt {s : Store} (h : Reachable s) :
    (∀ e ∈ s.persons, e.1 < s.currentPersonId) ∧
      (∀ e ∈ s.relationships, e.1 < s.currentRelationshipId) := by
  obtain ⟨ph, rh, hr⟩ := h
  have hi := reach_master_inv hr
  obtain ⟨-, -, -, hphb, hrhb, hpk, hrk, -, -⟩ := hi
  exact ⟨fun e he => (hphb _ (hpk e he)).2, fun e he => (hrhb _ (hrk e he)).2⟩

/-! ### The reciprocal-relationship invariant -/

theorem isCanonical_cases {t : String} (h : isCanonical t = true) :
    t = "parent" ∨ t = "child" ∨ t = "spouse" ∨ t = "sibling" := by
  simp only [isCanonical, Bool.or_eq_true, beq_iff_eq] at h
  tauto

theorem getReciprocalType_involutive {t : String} (h : isCanonical t = true) :
    getReciprocalType (getReciprocalType t) = t := by
  rcases isCanonical_cases h with rfl | rfl | rfl | rfl <;> rfl

/-- States reachable by operation sequences that avoid `deleteRelationship`
and restrict `createRelationship` to the four recognised types. -/
inductive ReachM : Store → Prop
  | init : ReachM emptyStore
  | createP (s : Store) (ip : InsertPerson) : ReachM s → ReachM (createPerson s ip).2
  | updateP (s : Store) (id : Int) (ip : InsertPerson) :
      ReachM s → ReachM (updatePerson s id ip).2
  | deleteP (s : Store) (id : Int) : ReachM s → ReachM (deletePerson s id).2
  | createR (s : Store) (ir : InsertRelationship) :
      isCanonical ir.type = true → ReachM s → ReachM (createRelationship s ir).2

theorem ReachM_Reachable {s : Store} (h : ReachM s) : Reachable s := by
  induction h with
  | init => exact ⟨[], [], Reach.init⟩
  | createP s ip h ih =>
    obtain ⟨ph, rh, hr⟩ := ih
    exact ⟨_, _, Reach.createP s ph rh ip hr⟩
  | updateP s id ip h ih =>
    obtain ⟨ph, rh, hr⟩ := ih
    exact ⟨_, _, Reach.updateP s ph rh id ip hr⟩
  | deleteP s id h ih =>
    obtain ⟨ph, rh, hr⟩ := ih
    exact ⟨_, _, Reach.deleteP s ph rh id hr⟩
  | createR s ir hc h ih =>
    obtain ⟨ph, rh, hr⟩ := ih
    exact ⟨_, _, Reach.createR s ph rh ir hr⟩

/-- With all stored keys below the counter, a canonical-typed insert appends
the requested relationship and its reciprocal at the end of the map. -/
theorem createRelationship_rels_canonical {s : Store}
    (hb : ∀ e ∈ s.relationships, e.1 < s.currentRelationshipId)
    {ir : InsertRelationship} (hcan : isCanonical ir.type = true) :
    (createRelationship s ir).2.relationships =
      s.relationships ++
        [(s.currentRelationshipId, { toInsertRelationship := ir, id := s.currentRelationshipId }),
         (s.currentRelationshipId + 1,
          { id := s.currentRelationshipId + 1, type := getReciprocalType ir.type,
            personId := ir.relatedPersonId, relatedPersonId := ir.personId })] := by
  have hsnd := congrArg Prod.snd (createRelationship_spec s ir)
  rw [if_pos hcan] at hsnd
  have hfresh0 : mapHas s.relationships s.currentRelationshipId ≠ true := by
    intro hhas
    obtain ⟨e, he, hek⟩ := mapHas_iff.mp hhas
    have h1 := hb e he
    rw [hek] at h1
    exact lt_irrefl _ h1
  have hstep1 := mapSet_of_not_has
    (m := s.relationships) (k := s.currentRelationshipId)
    { toInsertRelationship := ir, id := s.currentRelationshipId } hfresh0
  have hfresh1 : mapHas
      (s.relationships ++
        [(s.currentRelationshipId, { toInsertRelationship := ir, id := s.currentRelationshipId })])
      (s.currentRelationshipId + 1) ≠ true := by
    intro hhas
    obtain ⟨e, he, hek⟩ := mapHas_iff.mp hhas
    rcases List.mem_append.mp he with he | he
    · have h1 := hb e he
      rw [hek] at h1
      omega
    · have : e = (s.currentRelationshipId,
          { toInsertRelationship := ir, id := s.currentRelationshipId }) := by simpa using he
      rw [this] at hek
      simp at hek
  rw [hsnd]
  show mapSet (mapSet s.relationships s.currentRelationshipId _) (s.currentRelationshipId + 1) _ = _
  rw [hstep1, mapSet_of_not_has _ hfresh1, List.append_assoc]
  rfl

theorem MirrorInv_deleteP {s : Store} (hWF : WF s) (hm : MirrorInv s) (id : Int) :
    MirrorInv (deletePerson s id).2 := by
  have hspec := deletePerson_spec hWF id
  have hrels : (deletePerson s id).2.relationships =
      s.relationships.filter (fun e => !decide (touches e.2 id)) := by rw [hspec]
  intro e he
  rw [hrels] at he
  obtain ⟨heM, hp⟩ := List.mem_filter.mp he
  obtain ⟨e', he', hmir⟩ := hm e heM
  refine ⟨e', ?_, hmir⟩
  rw [hrels]
  apply List.mem_filter.mpr
  refine ⟨he', ?_⟩
  have hnt : ¬ touches e.2 id := by
    intro ht
    rw [decide_eq_true ht] at hp
    cases hp
  have hnt' : ¬ touches e'.2 id := by
    intro ht
    apply hnt
    rcases ht with ht | ht
    · exact Or.inr (hmir.1.symm.trans ht)
    · exact Or.inl (hmir.2.1.symm.trans ht)
  simp [hnt']

theorem MirrorInv_createR {s : Store}
    (hb : ∀ e ∈ s.relationships, e.1 < s.currentRelationshipId)
    (hm : MirrorInv s) {ir : InsertRelationship} (hcan : isCanonical ir.type = true) :
    MirrorInv (createRelationship s ir).2 := by
  have hrels := createRelationship_rels_canonical hb hcan
  intro e he
  rw [hrels] at he
  rcases List.mem_append.mp he with he | he
  · obtain ⟨e', he', hmir⟩ := hm e he
    exact ⟨e', by rw [hrels]; exact List.mem_append.mpr (Or.inl he'), hmir⟩
  · rcases List.mem_cons.mp he with he | he
    · refine ⟨(s.currentRelationshipId + 1,
        { id := s.currentRelationshipId + 1, type := getReciprocalType ir.type,
          personId := ir.relatedPersonId, relatedPersonId := ir.personId }), ?_, ?_⟩
      · rw [hrels]
        apply List.mem_append.mpr
        right
        simp
      · rw [he]
        exact ⟨rfl, rfl, rfl⟩
    · have he' : e = (s.currentRelationshipId + 1,
          { id := s.currentRelationshipId + 1, type := getReciprocalType ir.type,
            personId := ir.relatedPersonId, relatedPersonId := ir.personId }) := by
        simpa using he
      refine ⟨(s.currentRelationshipId,
        { toInsertRelationship := ir, id := s.currentRelationshipId }), ?_, ?_⟩
      · rw [hrels]
        apply List.mem_append.mpr
        right
        simp
      · rw [he']
        exact ⟨rfl, rfl, (getReciprocalType_involutive hcan).symm⟩

/-- Every state reachable without `deleteRelationship` and with only
canonical relationship types satisfies the reciprocal invariant. -/
theorem reachM_mirrorInv {s : Store} (h : ReachM s) : MirrorInv s := by
  induction h with
  | init => intro e he; cases he
  | createP s ip h ih => exact fun e he => ih e he
  | updateP s id ip h ih =>
    cases hget : mapGet s.persons id with
    | none =>
      rw [updatePerson_not_found ip hget]
      exact ih
    | some p₀ =>
      have hrels := (updatePerson_found (s := s) ip hget).2.2.1
      intro e he
      rw [hrels] at he
      obtain ⟨e', he', hmir⟩ := ih e he
      exact ⟨e', by rw [hrels]; exact he', hmir⟩
  | deleteP s id h ih => exact MirrorInv_deleteP (Reachable_WF (ReachM_Reachable h)) ih id
  | createR s ir hcan h ih =>
    exact MirrorInv_createR (Reachable_keys_lt (ReachM_Reachable h)).2 ih hcan

/-! ### The tree builder (`buildFamilyTree` in `client/src/lib/treeUtils.ts`)

A `FamilyTreePerson` is a person node with derived arrays of related nodes.
In JavaScript the arrays hold references to the (mutable) node objects; the
embedding stores the related persons' ids, which identify the referenced
nodes in the node map. -/

/-- `FamilyTreePerson`: the underlying person and the four derived arrays
(as lists of person ids, in push order). -/
structure FTNode where
  person : Person
  children : List Int
  parents : List Int
  spouses : List Int
  siblings : List Int
deriving DecidableEq, Repr

/-- `FamilyTreeData`. -/
structure FamilyTreeData where
  persons : List Person
  relationships : List Relationship
deriving DecidableEq, Repr

/-- First pass of `buildFamilyTree`: the `personsMap`, one node per person
with empty arrays (later entries overwrite earlier ones with the same id,
as `Map.set` does). -/
def initNodesMap (persons : List Person) : List (Int × FTNode) :=
  persons.foldl (fun m p => mapSet m p.id ⟨p, [], [], [], []⟩) []

/-- The `switch` on the relationship type in `buildFamilyTree`'s
relationship pass: push the related person onto the owning node's array
selected by the type (unknown types change nothing). -/
def linkRelationship (m : List (Int × FTNode)) (relationship : Relationship)
    (person : FTNode) : List (Int × FTNode) :=
  match relationship.type with
  | "parent" => mapSet m relationship.personId
      { person with children := person.children ++ [relationship.relatedPersonId] }
  | "child" => mapSet m relationship.personId
      { person with parents := person.parents ++ [relationship.relatedPersonId] }
  | "spouse" => mapSet m relationship.personId
      { person with spouses := person.spouses ++ [relationship.relatedPersonId] }
  | "sibling" => mapSet m relationship.personId
      { person with siblings := person.siblings ++ [relationship.relatedPersonId] }
  | _ => m

/-- One step of the second pass: process a single relationship.
Relationships whose either end is not in the map are skipped. -/
def addRelationship (m : List (Int × FTNode)) (relationship : Relationship) :
    List (Int × FTNode) :=
  match mapGet m relationship.personId, mapGet m relationship.relatedPersonId with
  | some person, some _ => linkRelationship m relationship person
  | _, _ => m

/-- The fully linked node map of `buildFamilyTree`. -/
def buildNodesMap (d : FamilyTreeData) : List (Int × FTNode) :=
  d.relationships.foldl addRelationship (initNodesMap d.persons)

/-- Stable insertion used to model `Array.prototype.sort` with comparator
`(a, b) => a.id - b.id` (stable, ascending by id). -/
def orderedInsertNode (x : FTNode) : List FTNode → List FTNode
  | [] => [x]
  | y :: ys =>
    if x.person.id < y.person.id then x :: y :: ys else y :: orderedInsertNode x ys

/-- Stable sort by ascending person id. -/
def sortNodesById (l : List FTNode) : List FTNode := l.foldr orderedInsertNode []

/-- `buildFamilyTree`: empty input gives `[]`; otherwise link all nodes,
collect the persons that occur as `personId` of no `'child'` relationship,
and return their nodes sorted by ascending id. -/
def buildFamilyTree (d : FamilyTreeData) : List FTNode :=
  if d.persons.length = 0 then [] else
    sortNodesById
      ((d.persons.filter (fun p =>
          !(((d.relationships.filter (fun r => r.type == "child")).map
              (·.personId)).contains p.id))).filterMap
        (fun p => mapGet (buildNodesMap d) p.id))

/-- The quadruple of derived arrays of a node. -/
def nodeArrays (n : FTNode) : List Int × List Int × List Int × List Int :=
  (n.children, n.parents, n.spouses, n.siblings)

/-- The ids pushed onto the `t`-selected array of node `k` by a relationship
list, given the node map `m` (used only for membership tests). -/
def derivedIds (t : String) (rels : List Relationship) (m : List (Int × FTNode))
    (k : Int) : List Int :=
  (rels.filter (fun r =>
    r.type == t && r.personId == k && (mapGet m r.relatedPersonId).isSome)).map
    (·.relatedPersonId)

/-! ### Lemmas about the node map -/

theorem find?_append_or (l₁ l₂ : List β) (p : β → Bool) :
    (l₁ ++ l₂).find? p = (l₁.find? p).or (l₂.find? p) := by
  induction l₁ with
  | nil => simp
  | cons b l₁ ih =>
    by_cases hb : p b
    · rw [List.cons_append, List.find?_cons_of_pos _ hb, List.find?_cons_of_pos _ hb]
      rfl
    · rw [List.cons_append, List.find?_cons_of_neg _ hb, List.find?_cons_of_neg _ hb, ih]

theorem initFold_get (l : List Person) (m₀ : List (Int × FTNode)) (k : Int) :
    mapGet (l.foldl (fun m p => mapSet m p.id ⟨p, [], [], [], []⟩) m₀) k =
      ((l.reverse.find? (fun p => p.id == k)).map
        (fun p => (⟨p, [], [], [], []⟩ : FTNode))).or (mapGet m₀ k) := by
  induction l generalizing m₀ with
  | nil => simp
  | cons p l ih =>
    rw [List.foldl_cons, ih, List.reverse_cons, find?_append_or]
    rw [mapGet_mapSet]
    cases hf : l.reverse.find? (fun p => p.id == k) with
    | some q => simp
    | none =>
      by_cases hpk : p.id = k
      · simp [hpk]
      · have hkp : ¬ k = p.id := fun h => hpk h.symm
        simp [hpk, hkp]

theorem initNodesMap_isSome (l : List Person) (k : Int) :
    (mapGet (initNodesMap l) k).isSome = true ↔ ∃ p ∈ l, p.id = k := by
  rw [initNodesMap, initFold_get]
  simp only [mapGet_nil, Option.or_none, Option.isSome_map']
  rw [List.find?_isSome]
  constructor
  · rintro ⟨p, hp, hpk⟩
    exact ⟨p, List.mem_reverse.mp hp, by simpa using hpk⟩
  · rintro ⟨p, hp, hpk⟩
    exact ⟨p, List.mem_reverse.mpr hp, by simpa using hpk⟩

theorem initNodesMap_arrays {l : List Person} {k : Int} {n : FTNode}
    (h : mapGet (initNodesMap l) k = some n) :
    n.children = [] ∧ n.parents = [] ∧ n.spouses = [] ∧ n.siblings = [] := by
  rw [initNodesMap, initFold_get] at h
  simp only [mapGet_nil, Option.or_none] at h
  cases hf : l.reverse.find? (fun p => p.id == k) with
  | none => rw [hf] at h; cases h
  | some q =>
    rw [hf] at h
    have : n = ⟨q, [], [], [], []⟩ := (Option.some.inj h).symm
    rw [this]
    exact ⟨rfl, rfl, rfl, rfl⟩

theorem find?_eq_of_nodup {l : List Person}
    (hnd : (l.map (·.id)).Nodup) {p : Person} (hp : p ∈ l) :
    l.find? (fun q => q.id == p.id) = some p := by
  induction l with
  | nil => cases hp
  | cons b l ih =>
    rcases List.mem_cons.mp hp with rfl | hp'
    · exact List.find?_cons_of_pos _ (by simp)
    · have hb : b.id ≠ p.id := by
        intro hbe
        have : p.id ∈ l.map (·.id) := List.mem_map.mpr ⟨p, hp', rfl⟩
        rw [← hbe] at this
        exact (List.nodup_cons.mp (by simpa using hnd)).1 this
      rw [List.find?_cons_of_neg _ (by simpa using hb)]
      exact ih (List.nodup_cons.mp (by simpa using hnd)).2 hp'

theorem initNodesMap_get_of_nodup {l : List Person}
    (hnd : (l.map (·.id)).Nodup) {p : Person} (hp : p ∈ l) :
    mapGet (initNodesMap l) p.id = some ⟨p, [], [], [], []⟩ := by
  rw [initNodesMap, initFold_get]
  simp only [mapGet_nil, Option.or_none]
  have hnd' : (l.reverse.map (·.id)).Nodup := by
    rw [List.map_reverse]
    exact List.nodup_reverse.mpr hnd
  rw [find?_eq_of_nodup hnd' (List.mem_reverse.mpr hp)]
  rfl

theorem mapGet_set_person {m : List (Int × FTNode)} {k' : Int} {nd nd' : FTNode}
    (h : mapGet m k' = some nd) (hp : nd'.person = nd.person) (k : Int) :
    (mapGet (mapSet m k' nd') k).map (·.person) = (mapGet m k).map (·.person) := by
  rw [mapGet_mapSet]
  by_cases hk : k = k'
  · rw [if_pos hk, hk, h, Option.map_some', Option.map_some', hp]
  · rw [if_neg hk]

theorem addRelationship_skip_left {m : List (Int × FTNode)} {r : Relationship}
    (hg1 : mapGet m r.personId = none) : addRelationship m r = m := by
  unfold addRelationship
  rw [hg1]

theorem addRelationship_skip_right {m : List (Int × FTNode)} {r : Relationship}
    {person : FTNode} (hg1 : mapGet m r.personId = some person)
    (hg2 : mapGet m r.relatedPersonId = none) : addRelationship m r = m := by
  unfold addRelationship
  rw [hg1, hg2]

theorem addRelationship_link {m : List (Int × FTNode)} {r : Relationship}
    {person other : FTNode} (hg1 : mapGet m r.personId = some person)
    (hg2 : mapGet m r.relatedPersonId = some other) :
    addRelationship m r = linkRelationship m r person := by
  unfold addRelationship
  rw [hg1, hg2]

theorem addRel_person (m : List (Int × FTNode)) (r : Relationship) (k : Int) :
    (mapGet (addRelationship m r) k).map (·.person) = (mapGet m k).map (·.person) := by
  cases hg1 : mapGet m r.personId with
  | none => rw [addRelationship_skip_left hg1]
  | some person =>
    cases hg2 : mapGet m r.relatedPersonId with
    | none => rw [addRelationship_skip_right hg1 hg2]
    | some other =>
      rw [addRelationship_link hg1 hg2]
      unfold linkRelationship
      split
      · refine mapGet_set_person hg1 ?_ k
        rfl
      · refine mapGet_set_person hg1 ?_ k
        rfl
      · refine mapGet_set_person hg1 ?_ k
        rfl
      · refine mapGet_set_person hg1 ?_ k
        rfl
      · rfl

theorem derivedIds_congr (t : String) (rels : List Relationship)
    {m m' : List (Int × FTNode)}
    (hdom : ∀ x, (mapGet m' x).isSome = (mapGet m x).isSome) (k : Int) :
    derivedIds t rels m' k = derivedIds t rels m k := by
  unfold derivedIds
  congr 1
  apply List.filter_congr
  intro r _
  rw [hdom]

theorem derivedIds_cons (t : String) (r : Relationship) (rels : List Relationship)
    (m : List (Int × FTNode)) (k : Int) :
    derivedIds t (r :: rels) m k = derivedIds t [r] m k ++ derivedIds t rels m k := by
  cases hp : (r.type == t && r.personId == k && (mapGet m r.relatedPersonId).isSome) <;>
    simp [derivedIds, List.filter_cons, hp]

theorem derivedIds_single (t : String) (r : Relationship) (m : List (Int × FTNode))
    (k : Int) :
    derivedIds t [r] m k =
      if r.type = t ∧ r.personId = k ∧ (mapGet m r.relatedPersonId).isSome = true
      then [r.relatedPersonId] else [] := by
  unfold derivedIds
  by_cases h1 : r.type = t
  · by_cases h2 : r.personId = k
    · cases h3 : (mapGet m r.relatedPersonId).isSome <;> simp [h1, h2, h3]
    · simp [h1, h2]
  · simp [h1]

theorem addRel_arrays (m : List (Int × FTNode)) (r : Relationship) (k : Int) :
    (mapGet (addRelationship m r) k).map nodeArrays =
      (mapGet m k).map (fun n =>
        (n.children ++ derivedIds "parent" [r] m k,
         n.parents ++ derivedIds "child" [r] m k,
         n.spouses ++ derivedIds "spouse" [r] m k,
         n.siblings ++ derivedIds "sibling" [r] m k)) := by
  simp only [derivedIds_single]
  cases hg1 : mapGet m r.personId with
  | none =>
    rw [addRelationship_skip_left hg1]
    by_cases hpk : r.personId = k
    · rw [← hpk, hg1]
      rfl
    · simp only [hpk, false_and, and_false, if_false]
      cases mapGet m k <;> simp [nodeArrays]
  | some person =>
    cases hg2 : mapGet m r.relatedPersonId with
    | none =>
      rw [addRelationship_skip_right hg1 hg2]
      simp only [hg2, Option.isSome_none, Bool.false_eq_true, and_false, if_false]
      cases mapGet m k <;> simp [nodeArrays]
    | some other =>
      rw [addRelationship_link hg1 hg2]
      simp only [hg2, Option.isSome_some, and_true]
      by_cases ht1 : r.type = "parent"
      · have hred : linkRelationship m r person = mapSet m r.personId
            { person with children := person.children ++ [r.relatedPersonId] } := by
          unfold linkRelationship
          rw [ht1]
          rfl
        rw [hred, mapGet_mapSet]
        by_cases hpk : k = r.personId
        · rw [if_pos hpk, hpk, hg1]
          simp [nodeArrays, ht1, hpk]
        · rw [if_neg hpk]
          have hpk' : ¬ r.personId = k := fun h => hpk h.symm
          simp only [hpk', and_false, if_false]
          cases mapGet m k <;> simp [nodeArrays]
      · by_cases ht2 : r.type = "child"
        · have hred : linkRelationship m r person = mapSet m r.personId
              { person with parents := person.parents ++ [r.relatedPersonId] } := by
            unfold linkRelationship
            rw [ht2]
            rfl
          rw [hred, mapGet_mapSet]
          by_cases hpk : k = r.personId
          · rw [if_pos hpk, hpk, hg1]
            simp [nodeArrays, ht2, hpk, ht1]
          · rw [if_neg hpk]
            have hpk' : ¬ r.personId = k := fun h => hpk h.symm
            simp only [hpk', and_false, if_false]
            cases mapGet m k <;> simp [nodeArrays]
        · by_cases ht3 : r.type = "spouse"
          · have hred : linkRelationship m r person = mapSet m r.personId
                { person with spouses := person.spouses ++ [r.relatedPersonId] } := by
              unfold linkRelationship
              rw [ht3]
              rfl
            rw [hred, mapGet_mapSet]
            by_cases hpk : k = r.personId
            · rw [if_pos hpk, hpk, hg1]
              simp [nodeArrays, ht3, hpk, ht1, ht2]
            · rw [if_neg hpk]
              have hpk' : ¬ r.personId = k := fun h => hpk h.symm
              simp only [hpk', and_false, if_false]
              cases mapGet m k <;> simp [nodeArrays]
          · by_cases ht4 : r.type = "sibling"
            · have hred : linkRelationship m r person = mapSet m r.personId
                  { person with siblings := person.siblings ++ [r.relatedPersonId] } := by
                unfold linkRelationship
                rw [ht4]
                rfl
              rw [hred, mapGet_mapSet]
              by_cases hpk : k = r.personId
              · rw [if_pos hpk, hpk, hg1]
                simp [nodeArrays, ht4, hpk, ht1, ht2, ht3]
              · rw [if_neg hpk]
                have hpk' : ¬ r.personId = k := fun h => hpk h.symm
                simp only [hpk', and_false, if_false]
                cases mapGet m k <;> simp [nodeArrays]
            · have hred : linkRelationship m r person = m := by
                unfold linkRelationship
                split
                · exact absurd (by assumption) ht1
                · exact absurd (by assumption) ht2
                · exact absurd (by assumption) ht3
                · exact absurd (by assumption) ht4
                · rfl
              rw [hred]
              simp only [ht1, ht2, ht3, ht4, false_and, if_false]
              cases mapGet m k <;> simp [nodeArrays]

/-- The relationship pass in one equation: each node's four arrays grow by
exactly the ids contributed by the processed relationships. -/
theorem fold_arrays :
    ∀ (rels : List Relationship) (m : List (Int × FTNode)) (k : Int),
    (mapGet (rels.foldl addRelationship m) k).map nodeArrays =
      (mapGet m k).map (fun n =>
        (n.children ++ derivedIds "parent" rels m k,
         n.parents ++ derivedIds "child" rels m k,
         n.spouses ++ derivedIds "spouse" rels m k,
         n.siblings ++ derivedIds "sibling" rels m k)) := by
  intro rels
  induction rels with
  | nil =>
    intro m k
    cases h : mapGet m k <;> simp [derivedIds, nodeArrays, h]
  | cons r rels ih =>
    intro m k
    rw [List.foldl_cons, ih (addRelationship m r) k]
    have hdom : ∀ x, (mapGet (addRelationship m r) x).isSome = (mapGet m x).isSome := by
      intro x
      have h2 := congrArg Option.isSome (addRel_person m r x)
      simpa using h2
    rw [derivedIds_congr "parent" rels hdom k, derivedIds_congr "child" rels hdom k,
        derivedIds_congr "spouse" rels hdom k, derivedIds_congr "sibling" rels hdom k]
    have hhead := addRel_arrays m r k
    cases hm' : mapGet (addRelationship m r) k with
    | none =>
      rw [hm'] at hhead
      cases hm : mapGet m k with
      | none => simp
      | some n =>
        rw [hm] at hhead
        simp at hhead
    | some n' =>
      rw [hm'] at hhead
      cases hm : mapGet m k with
      | none =>
        rw [hm] at hhead
        simp at hhead
      | some n =>
        rw [hm] at hhead
        have h4 := Option.some.inj hhead
        have hch : n'.children = n.children ++ derivedIds "parent" [r] m k :=
          congrArg (fun q => q.1) h4
        have hpa : n'.parents = n.parents ++ derivedIds "child" [r] m k :=
          congrArg (fun q => q.2.1) h4
        have hsp : n'.spouses = n.spouses ++ derivedIds "spouse" [r] m k :=
          congrArg (fun q => q.2.2.1) h4
        have hsi : n'.siblings = n.siblings ++ derivedIds "sibling" [r] m k :=
          congrArg (fun q => q.2.2.2) h4
        have hdc : ∀ t, derivedIds t (r :: rels) m k =
            derivedIds t [r] m k ++ derivedIds t rels m k :=
          fun t => derivedIds_cons t r rels m k
        simp only [Option.map_some']
        rw [hch, hpa, hsp, hsi, hdc, hdc, hdc, hdc]
        simp [List.append_assoc]

theorem foldRel_person (rels : List Relationship) (m : List (Int × FTNode)) (k : Int) :
    (mapGet (rels.foldl addRelationship m) k).map (·.person) =
      (mapGet m k).map (·.person) := by
  induction rels generalizing m with
  | nil => rfl
  | cons r rels ih => rw [List.foldl_cons, ih, addRel_person]

theorem buildNodesMap_person {d : FamilyTreeData}
    (hnd : (d.persons.map (·.id)).Nodup) {p : Person} (hp : p ∈ d.persons) :
    ∃ nd, mapGet (buildNodesMap d) p.id = some nd ∧ nd.person = p := by
  have h1 : (mapGet (buildNodesMap d) p.id).map (·.person) = some p := by
    rw [buildNodesMap, foldRel_person, initNodesMap_get_of_nodup hnd hp]
    rfl
  obtain ⟨nd, hnd', hnd''⟩ := Option.map_eq_some'.mp h1
  exact ⟨nd, hnd', hnd''⟩

theorem initNodesMap_isSome_any (l : List Person) (x : Int) :
    (mapGet (initNodesMap l) x).isSome = l.any (fun p => p.id == x) := by
  by_cases hex : ∃ p ∈ l, p.id = x
  · have h1 := (initNodesMap_isSome l x).mpr hex
    have h2 : l.any (fun p => p.id == x) = true := by
      obtain ⟨p, hp, hpx⟩ := hex
      exact List.any_eq_true.mpr ⟨p, hp, by simpa using hpx⟩
    rw [h1, h2]
  · have h1 : (mapGet (initNodesMap l) x).isSome ≠ true := fun hc =>
      hex ((initNodesMap_isSome l x).mp hc)
    have h2 : l.any (fun p => p.id == x) ≠ true := fun hc => by
      obtain ⟨p, hp, hpx⟩ := List.any_eq_true.mp hc
      exact hex ⟨p, hp, by simpa using hpx⟩
    rw [eq_false_of_ne_true h1, eq_false_of_ne_true h2]

/-- Counting an id in a derived array of the initial node map. -/
theorem derived_count (t : String) (d : FamilyTreeData) (k b : Int) :
    (derivedIds t d.relationships (initNodesMap d.persons) k).count b =
      (d.relationships.filter (fun r => r.type == t && r.personId == k &&
        r.relatedPersonId == b && d.persons.any (fun p => p.id == b))).length := by
  unfold derivedIds
  rw [List.count_eq_countP, List.countP_map, List.countP_filter,
    List.countP_eq_length_filter]
  congr 1
  apply List.filter_congr
  intro r _
  show (r.relatedPersonId == b &&
      (r.type == t && r.personId == k &&
        (mapGet (initNodesMap d.persons) r.relatedPersonId).isSome)) = _
  rw [initNodesMap_isSome_any]
  cases h1 : r.type == t <;> cases h2 : r.personId == k <;>
    cases h3 : r.relatedPersonId == b <;> simp [h1, h2, h3]
  have hb : r.relatedPersonId = b := by simpa using h3
  rw [hb]

/-! ### Sorting -/

theorem orderedInsertNode_perm (x : FTNode) (l : List FTNode) :
    List.Perm (orderedInsertNode x l) (x :: l) := by
  induction l with
  | nil => exact List.Perm.refl _
  | cons y ys ih =>
    unfold orderedInsertNode
    by_cases h : x.person.id < y.person.id
    · rw [if_pos h]
    · rw [if_neg h]
      exact (List.Perm.cons y ih).trans (List.Perm.swap x y ys)

theorem sortNodesById_perm (l : List FTNode) : List.Perm (sortNodesById l) l := by
  induction l with
  | nil => exact List.Perm.refl _
  | cons x l ih =>
    unfold sortNodesById
    rw [List.foldr_cons]
    exact (orderedInsertNode_perm x _).trans (List.Perm.cons x ih)

theorem orderedInsertNode_sorted {x : FTNode} {l : List FTNode}
    (h : l.Pairwise (fun a b => a.person.id ≤ b.person.id)) :
    (orderedInsertNode x l).Pairwise (fun a b => a.person.id ≤ b.person.id) := by
  induction l with
  | nil => simp [orderedInsertNode]
  | cons y ys ih =>
    unfold orderedInsertNode
    obtain ⟨hy, hys⟩ := List.pairwise_cons.mp h
    by_cases hxy : x.person.id < y.person.id
    · rw [if_pos hxy]
      refine List.pairwise_cons.mpr ⟨?_, h⟩
      intro b hb
      rcases List.mem_cons.mp hb with rfl | hb
      · exact le_of_lt hxy
      · exact le_trans (le_of_lt hxy) (hy b hb)
    · rw [if_neg hxy]
      refine List.pairwise_cons.mpr ⟨?_, ih hys⟩
      intro b hb
      have hmem := (orderedInsertNode_perm x ys).mem_iff.mp hb
      rcases List.mem_cons.mp hmem with rfl | hb'
      · exact Int.not_lt.mp hxy
      · exact hy b hb'

theorem sortNodesById_sorted (l : List FTNode) :
    (sortNodesById l).Pairwise (fun a b => a.person.id ≤ b.person.id) := by
  induction l with
  | nil => exact List.Pairwise.nil
  | cons x l ih =>
    unfold sortNodesById
    rw [List.foldr_cons]
    exact orderedInsertNode_sorted ih

theorem filterMap_nodes_map_person {M : List (Int × FTNode)} :
    ∀ (l : List Person), (∀ p ∈ l, ∃ nd, mapGet M p.id = some nd ∧ nd.person = p) →
      ((l.filterMap (fun p => mapGet M p.id)).map (·.person)) = l := by
  intro l
  induction l with
  | nil => intro _; rfl
  | cons p l ih =>
    intro hall
    obtain ⟨nd, hnd, hperson⟩ := hall p (List.mem_cons_self _ _)
    rw [List.filterMap_cons, hnd]
    simp only [List.map_cons]
    rw [hperson, ih (fun q hq => hall q (List.mem_cons_of_mem _ hq))]

/-! ### The layout engine (`layoutFamilyTree`)

The input is the recursive `FamilyTreePerson` structure; only the ids, the
spouse list and the children list matter to the layout.  Coordinates are
JavaScript numbers; all arithmetic performed here (sums, halving of even
quantities) is exact, so they are embedded as rationals. -/

/-- The recursive shape of a `FamilyTreePerson` as consumed by the layout:
its id, its spouses and its children. -/
inductive FTP where
  | mk (id : Int) (spouses : List FTP) (children : List FTP)

def FTP.pid : FTP → Int
  | .mk i _ _ => i

def FTP.spouses : FTP → List FTP
  | .mk _ s _ => s

def FTP.children : FTP → List FTP
  | .mk _ _ c => c

/-- A laid-out `TreeNode` (coordinates, dimensions, person id, level).  The
`children`/`spouse` back-references of the source carry no coordinate data
and are omitted. -/
structure LNode where
  x : ℚ
  y : ℚ
  width : ℚ
  height : ℚ
  pid : Int
  level : Nat
deriving DecidableEq, Repr

/-- A connector line segment. -/
structure Connector where
  type : String
  x1 : ℚ
  y1 : ℚ
  x2 : ℚ
  y2 : ℚ
deriving DecidableEq, Repr

/-- The mutable state of `layoutFamilyTree`: the `nodes` and `connectors`
arrays and the running `maxWidth`/`maxHeight`. -/
structure LState where
  nodes : List LNode
  connectors : List Connector
  maxWidth : ℚ
  maxHeight : ℚ
deriving DecidableEq, Repr

structure Dimensions where
  width : ℚ
  height : ℚ
deriving DecidableEq, Repr

structure TreeLayout where
  nodes : List LNode
  connectors : List Connector
  dimensions : Dimensions
deriving DecidableEq, Repr

def NODE_WIDTH : ℚ := 256
def NODE_HEIGHT : ℚ := 120
def LEVEL_HEIGHT : ℚ := 160
def SIBLING_SPACING : ℚ := 40
def SPOUSE_SPACING : ℚ := 32

theorem FTP.sizeOf_children_lt (t : FTP) : sizeOf t.children < sizeOf t := by
  cases t with
  | mk i s c =>
    simp only [FTP.children, FTP.mk.sizeOf_spec]
    omega

/-- The `TreeNode` created for the person being processed. -/
def mkTreeNode (pid : Int) (level : Nat) (xOffset : ℚ) : LNode :=
  ⟨xOffset, (level : ℚ) * LEVEL_HEIGHT, NODE_WIDTH, NODE_HEIGHT, pid, level⟩

/-- The `TreeNode` created for the first spouse. -/
def mkSpouseNode (spid : Int) (level : Nat) (xOffset : ℚ) : LNode :=
  ⟨xOffset + NODE_WIDTH + SPOUSE_SPACING, (level : ℚ) * LEVEL_HEIGHT,
   NODE_WIDTH, NODE_HEIGHT, spid, level⟩

/-- `nodes.push(n)`. -/
def pushNode (st : LState) (n : LNode) : LState :=
  { st with nodes := st.nodes ++ [n] }

/-- `connectors.push(c)`. -/
def pushConnector (st : LState) (c : Connector) : LState :=
  { st with connectors := st.connectors ++ [c] }

/-- `maxWidth = Math.max(maxWidth, w); maxHeight = Math.max(maxHeight, h)`. -/
def bumpMax (st : LState) (w h : ℚ) : LState :=
  { st with maxWidth := max st.maxWidth w, maxHeight := max st.maxHeight h }

/-- The spouse block of `processNode`: when a spouse exists, push its node
and the horizontal connector; report the spouse node and the running
`totalWidth`. -/
def spouseStepF (node : LNode) (spouses : List FTP) (level : Nat) (xOffset : ℚ)
    (st1 : LState) : LState × Option LNode × ℚ :=
  match spouses with
  | [] => (st1, none, NODE_WIDTH)
  | spouse :: _ =>
    let spouseNode := mkSpouseNode spouse.pid level xOffset
    (pushConnector (pushNode st1 spouseNode)
      ⟨"horizontal", node.x + node.width, node.y + node.height / 2,
        spouseNode.x, spouseNode.y + spouseNode.height / 2⟩,
     some spouseNode, NODE_WIDTH + (NODE_WIDTH + SPOUSE_SPACING))

/-- The starting x position for the children, centred under the parent (or
the couple) and clamped to at least 0. -/
def childXOffsetF (node : LNode) (spouseNode : Option LNode) (n : Nat) : ℚ :=
  max 0
    (match spouseNode with
     | some sp => node.x + ((sp.x + sp.width - node.x) / 2) -
         (((n : ℚ) * NODE_WIDTH + ((n : ℚ) - 1) * SIBLING_SPACING) / 2)
     | none => node.x + (node.width / 2) -
         (((n : ℚ) * NODE_WIDTH + ((n : ℚ) - 1) * SIBLING_SPACING) / 2))

/-- The x centre above the children. -/
def centerXF (node : LNode) (spouseNode : Option LNode) : ℚ :=
  match spouseNode with
  | some sp => node.x + ((sp.x + sp.width - node.x) / 2)
  | none => node.x + (node.width / 2)

/-- The vertical connector from the parent and, with more than one child,
the horizontal connector spanning the children. -/
def childConnectorsStep (node : LNode) (spouseNode : Option LNode) (cxo : ℚ)
    (n : Nat) (st2 : LState) : LState :=
  let parentY := node.y + node.height
  let stV := pushConnector st2
    ⟨"vertical", centerXF node spouseNode, parentY,
      centerXF node spouseNode, parentY + LEVEL_HEIGHT / 2⟩
  if 1 < n then
    pushConnector stV
      ⟨"horizontal", cxo + NODE_WIDTH / 2, parentY + LEVEL_HEIGHT / 2,
        cxo + (n : ℚ) * NODE_WIDTH + ((n : ℚ) - 1) * SIBLING_SPACING - NODE_WIDTH / 2,
        parentY + LEVEL_HEIGHT / 2⟩
  else stV

mutual

/-- `processNode`: push this person's node, lay out the first spouse beside
it, lay out the valid (not yet processed) children centred below, and grow
the running maxima. -/
def processNode : FTP → Nat → ℚ → LState → LState × LNode
  | .mk pid spouses children, level, xOffset, st =>
    let node := mkTreeNode pid level xOffset
    let spouseStep := spouseStepF node spouses level xOffset (pushNode st node)
    let validChildren := children.filter
      (fun child => !(spouseStep.1.nodes.any (fun n => n.pid == child.pid)))
    let st3 :=
      if 0 < validChildren.length then
        processChildren children spouseStep.1.nodes level
          (childXOffsetF node spouseStep.2.1 validChildren.length)
          (node.y + node.height) 0
          (childConnectorsStep node spouseStep.2.1
            (childXOffsetF node spouseStep.2.1 validChildren.length)
            validChildren.length spouseStep.1)
      else spouseStep.1
    (bumpMax st3 (xOffset + spouseStep.2.2) ((level : ℚ) * LEVEL_HEIGHT + NODE_HEIGHT),
     node)
termination_by structural t level xOffset st => t

/-- The `forEach` over the valid children: the filter against the node
snapshot is fused into the loop (children already present in `snapshot`
are skipped without consuming an index). -/
def processChildren (cs : List FTP) (snapshot : List LNode) (level : Nat)
    (childXOffset parentY : ℚ) (index : Nat) (st : LState) : LState :=
  match cs with
  | [] => st
  | c :: rest =>
    if snapshot.any (fun n => n.pid == c.pid) then
      processChildren rest snapshot level childXOffset parentY index st
    else
      let childX := childXOffset + (index : ℚ) * (NODE_WIDTH + SIBLING_SPACING)
      let res := processNode c (level + 1) childX st
      processChildren rest snapshot level childXOffset parentY (index + 1)
        (bumpMax
          (pushConnector res.1
            ⟨"vertical", childX + NODE_WIDTH / 2, parentY + LEVEL_HEIGHT / 2,
              childX + NODE_WIDTH / 2, res.2.y⟩)
          (childX + NODE_WIDTH) (res.2.y + NODE_HEIGHT))
termination_by structural cs

end

/-- `layoutFamilyTree`: process each root at the running x position,
advancing it past the current maximum width. -/
def layoutFamilyTree (rootPersons : List FTP) : TreeLayout :=
  let final := (rootPersons.foldl
    (fun acc rootPerson =>
      let res := processNode rootPerson 0 acc.2 acc.1
      (res.1, res.1.maxWidth + SIBLING_SPACING))
    ((⟨[], [], 0, 0⟩ : LState), (0 : ℚ))).1
  ⟨final.nodes, final.connectors, ⟨final.maxWidth, final.maxHeight⟩⟩

/-- A node lies inside the box `[0, w] × [0, h]`. -/
def InBounds (n : LNode) (w h : ℚ) : Prop :=
  0 ≤ n.x ∧ 0 ≤ n.y ∧ n.x + n.width ≤ w ∧ n.y + n.height ≤ h

/-- Effect summary of a layout pass: maxima only grow, and every node not
already present lies inside the final maxima. -/
def LPost (st st' : LState) : Prop :=
  st.maxWidth ≤ st'.maxWidth ∧ st.maxHeight ≤ st'.maxHeight ∧
    ∀ n ∈ st'.nodes, n ∈ st.nodes ∨ InBounds n st'.maxWidth st'.maxHeight

theorem InBounds.mono {n : LNode} {w h w' h' : ℚ} (hb : InBounds n w h)
    (hw : w ≤ w') (hh : h ≤ h') : InBounds n w' h' :=
  ⟨hb.1, hb.2.1, le_trans hb.2.2.1 hw, le_trans hb.2.2.2 hh⟩

theorem LPost.trans {s1 s2 s3 : LState} (h12 : LPost s1 s2) (h23 : LPost s2 s3) :
    LPost s1 s3 := by
  refine ⟨le_trans h12.1 h23.1, le_trans h12.2.1 h23.2.1, ?_⟩
  intro n hn
  rcases h23.2.2 n hn with hn2 | hb
  · rcases h12.2.2 n hn2 with hn1 | hb
    · exact Or.inl hn1
    · exact Or.inr (hb.mono h23.1 h23.2.1)
  · exact Or.inr hb

theorem LPost.refl (st : LState) : LPost st st :=
  ⟨le_rfl, le_rfl, fun n hn => Or.inl hn⟩

theorem FTP.one_le_sizeOf (t : FTP) : 1 ≤ sizeOf t := by
  cases t with
  | mk i s c =>
    simp only [FTP.mk.sizeOf_spec]
    omega

theorem level_y_nonneg (level : Nat) : (0 : ℚ) ≤ (level : ℚ) * LEVEL_HEIGHT := by
  have h1 : (0 : ℚ) ≤ (level : ℚ) := Nat.cast_nonneg level
  have h2 : (0 : ℚ) ≤ LEVEL_HEIGHT := by norm_num [LEVEL_HEIGHT]
  exact mul_nonneg h1 h2

theorem spouseStepF_nil (node : LNode) (level : Nat) (xOffset : ℚ) (st1 : LState) :
    spouseStepF node [] level xOffset st1 = (st1, none, NODE_WIDTH) := rfl

theorem spouseStepF_cons (node : LNode) (spouse : FTP) (rest : List FTP)
    (level : Nat) (xOffset : ℚ) (st1 : LState) :
    spouseStepF node (spouse :: rest) level xOffset st1 =
      (pushConnector (pushNode st1 (mkSpouseNode spouse.pid level xOffset))
        ⟨"horizontal", node.x + node.width, node.y + node.height / 2,
          (mkSpouseNode spouse.pid level xOffset).x,
          (mkSpouseNode spouse.pid level xOffset).y +
            (mkSpouseNode spouse.pid level xOffset).height / 2⟩,
       some (mkSpouseNode spouse.pid level xOffset),
       NODE_WIDTH + (NODE_WIDTH + SPOUSE_SPACING)) := rfl

theorem pushNode_nodes (st : LState) (n : LNode) :
    (pushNode st n).nodes = st.nodes ++ [n] := rfl

theorem pushNode_maxes (st : LState) (n : LNode) :
    (pushNode st n).maxWidth = st.maxWidth ∧ (pushNode st n).maxHeight = st.maxHeight :=
  ⟨rfl, rfl⟩

theorem pushConnector_nodes (st : LState) (c : Connector) :
    (pushConnector st c).nodes = st.nodes := rfl

theorem pushConnector_maxes (st : LState) (c : Connector) :
    (pushConnector st c).maxWidth = st.maxWidth ∧
      (pushConnector st c).maxHeight = st.maxHeight := ⟨rfl, rfl⟩

theorem bumpMax_nodes (st : LState) (w h : ℚ) : (bumpMax st w h).nodes = st.nodes := rfl

theorem bumpMax_maxes (st : LState) (w h : ℚ) :
    (bumpMax st w h).maxWidth = max st.maxWidth w ∧
      (bumpMax st w h).maxHeight = max st.maxHeight h := ⟨rfl, rfl⟩

theorem childConnectorsStep_nodes (node : LNode) (spouseNode : Option LNode)
    (cxo : ℚ) (n : Nat) (st2 : LState) :
    (childConnectorsStep node spouseNode cxo n st2).nodes = st2.nodes := by
  unfold childConnectorsStep
  split <;> rfl

theorem childConnectorsStep_maxes (node : LNode) (spouseNode : Option LNode)
    (cxo : ℚ) (n : Nat) (st2 : LState) :
    (childConnectorsStep node spouseNode cxo n st2).maxWidth = st2.maxWidth ∧
      (childConnectorsStep node spouseNode cxo n st2).maxHeight = st2.maxHeight := by
  unfold childConnectorsStep
  split <;> exact ⟨rfl, rfl⟩

theorem childXOffsetF_nonneg (node : LNode) (spouseNode : Option LNode) (n : Nat) :
    0 ≤ childXOffsetF node spouseNode n :=
  le_max_left 0 _

theorem mkTreeNode_inBounds (pid : Int) (level : Nat) (xOffset : ℚ) {W H : ℚ}
    (hx : 0 ≤ xOffset) (hW : xOffset + NODE_WIDTH ≤ W)
    (hH : (level : ℚ) * LEVEL_HEIGHT + NODE_HEIGHT ≤ H) :
    InBounds (mkTreeNode pid level xOffset) W H :=
  ⟨hx, level_y_nonneg level, hW, hH⟩

theorem mkSpouseNode_inBounds (spid : Int) (level : Nat) (xOffset : ℚ) {W H : ℚ}
    (hx : 0 ≤ xOffset) (hW : xOffset + (NODE_WIDTH + (NODE_WIDTH + SPOUSE_SPACING)) ≤ W)
    (hH : (level : ℚ) * LEVEL_HEIGHT + NODE_HEIGHT ≤ H) :
    InBounds (mkSpouseNode spid level xOffset) W H := by
  refine ⟨?_, level_y_nonneg level, ?_, hH⟩
  · show 0 ≤ xOffset + NODE_WIDTH + SPOUSE_SPACING
    have : (0 : ℚ) ≤ NODE_WIDTH + SPOUSE_SPACING := by norm_num [NODE_WIDTH, SPOUSE_SPACING]
    linarith
  · show xOffset + NODE_WIDTH + SPOUSE_SPACING + NODE_WIDTH ≤ W
    linarith

/-- The assembly step shared by the branches of `processNode`'s effect
proof. -/
theorem processNode_post_aux {st st2 st3 : LState} {node : LNode}
    {spList : List LNode} {w h : ℚ}
    (hnodes2 : st2.nodes = st.nodes ++ [node] ++ spList)
    (hmax2W : st2.maxWidth = st.maxWidth) (hmax2H : st2.maxHeight = st.maxHeight)
    (h3W : st2.maxWidth ≤ st3.maxWidth) (h3H : st2.maxHeight ≤ st3.maxHeight)
    (h3nodes : ∀ n ∈ st3.nodes, n ∈ st2.nodes ∨ InBounds n st3.maxWidth st3.maxHeight)
    (hnodeB : InBounds node (max st3.maxWidth w) (max st3.maxHeight h))
    (hspB : ∀ n ∈ spList, InBounds n (max st3.maxWidth w) (max st3.maxHeight h)) :
    LPost st (bumpMax st3 w h) := by
  refine ⟨?_, ?_, ?_⟩
  · rw [(bumpMax_maxes st3 w h).1]
    rw [hmax2W] at h3W
    exact le_trans h3W (le_max_left _ _)
  · rw [(bumpMax_maxes st3 w h).2]
    rw [hmax2H] at h3H
    exact le_trans h3H (le_max_left _ _)
  · intro n hn
    rw [bumpMax_nodes] at hn
    rw [(bumpMax_maxes st3 w h).1, (bumpMax_maxes st3 w h).2]
    rcases h3nodes n hn with hn2 | hb
    · rw [hnodes2] at hn2
      rcases List.mem_append.mp hn2 with hn2 | hn2
      · rcases List.mem_append.mp hn2 with hn2 | hn2
        · exact Or.inl hn2
        · have : n = node := by simpa using hn2
          rw [this]
          exact Or.inr hnodeB
      · exact Or.inr (hspB n hn2)
    · exact Or.inr (hb.mono (le_max_left _ _) (le_max_left _ _))

/-- Both layout passes satisfy the effect summary, by strong induction on
the size of the processed tree. -/
theorem layout_post (N : Nat) :
    (∀ t : FTP, sizeOf t ≤ N → ∀ (level : Nat) (xOffset : ℚ) (st : LState),
      0 ≤ xOffset → LPost st (processNode t level xOffset st).1) ∧
    (∀ cs : List FTP, sizeOf cs ≤ N → ∀ (snapshot : List LNode) (level : Nat)
      (cxo pY : ℚ) (idx : Nat) (st : LState), 0 ≤ cxo →
      LPost st (processChildren cs snapshot level cxo pY idx st)) := by
  induction N with
  | zero =>
    constructor
    · intro t ht
      have := FTP.one_le_sizeOf t
      omega
    · intro cs hcs
      cases cs with
      | nil => simp at hcs
      | cons c rest =>
        simp only [List.cons.sizeOf_spec] at hcs
        omega
  | succ N ih =>
    obtain ⟨ihN, ihC⟩ := ih
    constructor
    · rintro ⟨pid, spouses, children⟩ ht level xOffset st hx
      simp only [FTP.mk.sizeOf_spec] at ht
      have hchild : sizeOf children ≤ N := by
        have hsp : 1 ≤ sizeOf spouses := by
          cases spouses <;> simp only [List.nil.sizeOf_spec, List.cons.sizeOf_spec] <;> omega
        omega
      simp only [processNode]
      cases spouses with
      | nil =>
        simp only [spouseStepF_nil]
        set node := mkTreeNode pid level xOffset with hnodedef
        set st1 := pushNode st node with hst1def
        set vc := children.filter
          (fun child => !(st1.nodes.any (fun n => n.pid == child.pid))) with hvcdef
        have hst1nodes : st1.nodes = st.nodes ++ [node] ++ [] := by
          rw [hst1def, pushNode_nodes, List.append_nil]
        by_cases hvc : 0 < vc.length
        · rw [if_pos hvc]
          have hpost := ihC children hchild st1.nodes level
            (childXOffsetF node none vc.length) (node.y + node.height) 0
            (childConnectorsStep node none (childXOffsetF node none vc.length)
              vc.length st1)
            (childXOffsetF_nonneg node none vc.length)
          refine processNode_post_aux hst1nodes rfl rfl ?_ ?_ ?_ ?_ ?_
          · exact le_trans
              (le_of_eq (childConnectorsStep_maxes node none _ vc.length st1).1.symm)
              hpost.1
          · exact le_trans
              (le_of_eq (childConnectorsStep_maxes node none _ vc.length st1).2.symm)
              hpost.2.1
          · intro n hn
            rcases hpost.2.2 n hn with h | h
            · left
              rwa [childConnectorsStep_nodes] at h
            · right
              exact h
          · exact mkTreeNode_inBounds pid level xOffset hx (le_max_right _ _)
              (le_max_right _ _)
          · intro n hn
            cases hn
        · rw [if_neg hvc]
          refine processNode_post_aux hst1nodes rfl rfl le_rfl le_rfl
            (fun n hn => Or.inl hn) ?_ ?_
          · exact mkTreeNode_inBounds pid level xOffset hx (le_max_right _ _)
              (le_max_right _ _)
          · intro n hn
            cases hn
      | cons spouse rest =>
        simp only [spouseStepF_cons]
        set node := mkTreeNode pid level xOffset with hnodedef
        set spNode := mkSpouseNode spouse.pid level xOffset with hspdef
        set st2 := pushConnector (pushNode (pushNode st node) spNode)
          ⟨"horizontal", node.x + node.width, node.y + node.height / 2,
            spNode.x, spNode.y + spNode.height / 2⟩ with hst2def
        set vc := children.filter
          (fun child => !(st2.nodes.any (fun n => n.pid == child.pid))) with hvcdef
        have hst2nodes : st2.nodes = st.nodes ++ [node] ++ [spNode] := by
          rw [hst2def, pushConnector_nodes, pushNode_nodes, pushNode_nodes]
        have hst2W : st2.maxWidth = st.maxWidth := rfl
        have hst2H : st2.maxHeight = st.maxHeight := rfl
        by_cases hvc : 0 < vc.length
        · rw [if_pos hvc]
          have hpost := ihC children hchild st2.nodes level
            (childXOffsetF node (some spNode) vc.length) (node.y + node.height) 0
            (childConnectorsStep node (some spNode)
              (childXOffsetF node (some spNode) vc.length) vc.length st2)
            (childXOffsetF_nonneg node (some spNode) vc.length)
          refine processNode_post_aux hst2nodes hst2W hst2H ?_ ?_ ?_ ?_ ?_
          · exact le_trans
              (le_of_eq (childConnectorsStep_maxes node (some spNode) _ vc.length st2).1.symm)
              hpost.1
          · exact le_trans
              (le_of_eq (childConnectorsStep_maxes node (some spNode) _ vc.length st2).2.symm)
              hpost.2.1
          · intro n hn
            rcases hpost.2.2 n hn with h | h
            · left
              rwa [childConnectorsStep_nodes] at h
            · right
              exact h
          · refine mkTreeNode_inBounds pid level xOffset hx ?_ (le_max_right _ _)
            refine le_trans ?_ (le_max_right _ _)
            have : (0 : ℚ) ≤ NODE_WIDTH + SPOUSE_SPACING := by
              norm_num [NODE_WIDTH, SPOUSE_SPACING]
            linarith
          · intro n hn
            have : n = spNode := by simpa using hn
            rw [this]
            exact mkSpouseNode_inBounds spouse.pid level xOffset hx (le_max_right _ _)
              (le_max_right _ _)
        · rw [if_neg hvc]
          refine processNode_post_aux hst2nodes hst2W hst2H le_rfl le_rfl
            (fun n hn => Or.inl hn) ?_ ?_
          · refine mkTreeNode_inBounds pid level xOffset hx ?_ (le_max_right _ _)
            refine le_trans ?_ (le_max_right _ _)
            have : (0 : ℚ) ≤ NODE_WIDTH + SPOUSE_SPACING := by
              norm_num [NODE_WIDTH, SPOUSE_SPACING]
            linarith
          · intro n hn
            have : n = spNode := by simpa using hn
            rw [this]
            exact mkSpouseNode_inBounds spouse.pid level xOffset hx (le_max_right _ _)
              (le_max_right _ _)
    · intro cs hcs snapshot level cxo pY idx st hcxo
      induction cs generalizing idx st with
      | nil =>
        simp only [processChildren]
        exact LPost.refl st
      | cons c rest ihrest =>
        simp only [List.cons.sizeOf_spec] at hcs
        have hc : sizeOf c ≤ N := by omega
        have hrest : sizeOf rest ≤ N + 1 := by omega
        simp only [processChildren]
        by_cases hskip : snapshot.any (fun n => n.pid == c.pid) = true
        · rw [if_pos hskip]
          exact ihrest hrest idx st
        · rw [if_neg hskip]
          have hcx : 0 ≤ cxo + (idx : ℚ) * (NODE_WIDTH + SIBLING_SPACING) := by
            have h1 : (0 : ℚ) ≤ (idx : ℚ) := Nat.cast_nonneg idx
            have h2 : (0 : ℚ) ≤ NODE_WIDTH + SIBLING_SPACING := by
              norm_num [NODE_WIDTH, SIBLING_SPACING]
            have := mul_nonneg h1 h2
            linarith
          have h1 := ihN c hc (level + 1)
            (cxo + (idx : ℚ) * (NODE_WIDTH + SIBLING_SPACING)) st hcx
          set res := processNode c (level + 1)
            (cxo + (idx : ℚ) * (NODE_WIDTH + SIBLING_SPACING)) st with hresdef
          set std := bumpMax
            (pushConnector res.1
              ⟨"vertical", cxo + (idx : ℚ) * (NODE_WIDTH + SIBLING_SPACING) + NODE_WIDTH / 2,
                pY + LEVEL_HEIGHT / 2,
                cxo + (idx : ℚ) * (NODE_WIDTH + SIBLING_SPACING) + NODE_WIDTH / 2, res.2.y⟩)
            (cxo + (idx : ℚ) * (NODE_WIDTH + SIBLING_SPACING) + NODE_WIDTH)
            (res.2.y + NODE_HEIGHT) with hstddef
          have hmid : LPost st std := by
            refine ⟨?_, ?_, ?_⟩
            · rw [hstddef, (bumpMax_maxes _ _ _).1]
              exact le_trans h1.1 (le_trans (le_of_eq rfl) (le_max_left _ _))
            · rw [hstddef, (bumpMax_maxes _ _ _).2]
              exact le_trans h1.2.1 (le_max_left _ _)
            · intro n hn
              rw [hstddef, bumpMax_nodes, pushConnector_nodes] at hn
              rcases h1.2.2 n hn with h | h
              · exact Or.inl h
              · right
                rw [hstddef, (bumpMax_maxes _ _ _).1, (bumpMax_maxes _ _ _).2]
                exact h.mono (le_max_left _ _) (le_max_left _ _)
          exact hmid.trans (ihrest hrest (idx + 1) std)

/-- Every node accumulated by the root loop lies inside the final maxima. -/
theorem layout_fold_inBounds :
    ∀ (roots : List FTP) (acc : LState × ℚ), 0 ≤ acc.2 → 0 ≤ acc.1.maxWidth →
      (∀ n ∈ acc.1.nodes, InBounds n acc.1.maxWidth acc.1.maxHeight) →
      ∀ n ∈ (roots.foldl
          (fun acc rootPerson =>
            let res := processNode rootPerson 0 acc.2 acc.1
            (res.1, res.1.maxWidth + SIBLING_SPACING)) acc).1.nodes,
        InBounds n
          (roots.foldl
            (fun acc rootPerson =>
              let res := processNode rootPerson 0 acc.2 acc.1
              (res.1, res.1.maxWidth + SIBLING_SPACING)) acc).1.maxWidth
          (roots.foldl
            (fun acc rootPerson =>
              let res := processNode rootPerson 0 acc.2 acc.1
              (res.1, res.1.maxWidth + SIBLING_SPACING)) acc).1.maxHeight := by
  intro roots
  induction roots with
  | nil =>
    intro acc hx hW hB
    simpa using hB
  | cons r roots ih =>
    intro acc hx hW hB
    rw [List.foldl_cons]
    have hpost := (layout_post (sizeOf r)).1 r le_rfl 0 acc.2 acc.1 hx
    apply ih
    · show 0 ≤ (processNode r 0 acc.2 acc.1).1.maxWidth + SIBLING_SPACING
      have h1 := hpost.1
      have h2 : (0 : ℚ) ≤ SIBLING_SPACING := by norm_num [SIBLING_SPACING]
      linarith
    · show 0 ≤ (processNode r 0 acc.2 acc.1).1.maxWidth
      linarith [hpost.1]
    · show ∀ n ∈ (processNode r 0 acc.2 acc.1).1.nodes,
        InBounds n (processNode r 0 acc.2 acc.1).1.maxWidth
          (processNode r 0 acc.2 acc.1).1.maxHeight
      intro n hn
      rcases hpost.2.2 n hn with h | h
      · exact (hB n h).mono hpost.1 hpost.2.1
      · exact h

/-- A sample insertable person used in concrete instantiations. -/
def samplePerson : InsertPerson :=
  { name := "Ada", gender := none, birthDate := none, birthPlace := none,
    deathDate := none, notes := none }

/-- A second sample insertable person. -/
def samplePersonB : InsertPerson :=
  { name := "Bea", gender := some "female", birthDate := none, birthPlace := none,
    deathDate := none, notes := some "updated" }

/-! ## The claims -/

/-- C1, counterexample: as stated, the reciprocal invariant fails.  Creating
the same parent relationship twice and then deleting the first copy leaves a
parent relationship whose child mirror has been deleted (the mirror pass of
`deleteRelationship` removes every matching mirror). -/
theorem C1_counterexample :
    Reachable (deleteRelationship
      (createRelationship (createRelationship emptyStore ⟨"parent", 1, 2⟩).2
        ⟨"parent", 1, 2⟩).2 1).2 ∧
    ¬ MirrorInv (deleteRelationship
      (createRelationship (createRelationship emptyStore ⟨"parent", 1, 2⟩).2
        ⟨"parent", 1, 2⟩).2 1).2 := by
  constructor
  · exact ⟨_, _, Reach.deleteR _ _ _ 1
      (Reach.createR _ _ _ ⟨"parent", 1, 2⟩
        (Reach.createR _ _ _ ⟨"parent", 1, 2⟩ Reach.init))⟩
  · decide

/-- C1, amended: starting from the empty store, after every finite sequence
of `createPerson`, `updatePerson`, `deletePerson` and `createRelationship`
operations whose relationship types are among parent/child/spouse/sibling,
every stored relationship has a stored mirror of the reciprocal type in the
opposite direction.  (`deleteRelationship` can break the invariant when the
store holds duplicate relationships, and `createRelationship` with an
unrecognised type stores no mirror.) -/
theorem C1_mirror_invariant {s : Store} (h : ReachM s) : MirrorInv s :=
  reachM_mirrorInv h

/-- Witness for C1 at a concrete reachable store. -/
theorem C1_mirror_invariant_witness :
    MirrorInv (createRelationship emptyStore ⟨"parent", 1, 2⟩).2 :=
  C1_mirror_invariant
    (ReachM.createR emptyStore ⟨"parent", 1, 2⟩ (by decide) ReachM.init)

/-- C2, counterexample: an insert request whose type is not one of the four
recognised strings stores only the requested relationship; no second
(reciprocal, opposite-direction) relationship is recorded. -/
theorem C2_counterexample :
    (createRelationship emptyStore ⟨"guardian", 1, 2⟩).2.relationships =
      [(1, ⟨⟨"guardian", 1, 2⟩, 1⟩)] ∧
    ¬ ∃ e ∈ (createRelationship emptyStore ⟨"guardian", 1, 2⟩).2.relationships,
        e.2.personId = 2 ∧ e.2.relatedPersonId = 1 := by
  decide

/-- C2, amended: `createRelationship` stores the requested relationship
under the next id and returns it; when the type is one of
parent/child/spouse/sibling it also records a second relationship of the
reciprocal type with the person ids swapped under the following id; for any
other type only the requested relationship is stored. -/
theorem C2_createRelationship (s : Store) (ir : InsertRelationship) :
    createRelationship s ir =
      ({ toInsertRelationship := ir, id := s.currentRelationshipId },
       if isCanonical ir.type then
         { s with
           relationships :=
             mapSet
               (mapSet s.relationships s.currentRelationshipId
                 { toInsertRelationship := ir, id := s.currentRelationshipId })
               (s.currentRelationshipId + 1)
               { id := s.currentRelationshipId + 1, type := getReciprocalType ir.type,
                 personId := ir.relatedPersonId, relatedPersonId := ir.personId },
           currentRelationshipId := s.currentRelationshipId + 1 + 1 }
       else
         { s with
           relationships :=
             mapSet s.relationships s.currentRelationshipId
               { toInsertRelationship := ir, id := s.currentRelationshipId },
           currentRelationshipId := s.currentRelationshipId + 1 }) :=
  createRelationship_spec s ir

/-- C3, counterexample: deleting a stored self-spouse relationship returns
`false` even though the relationship was stored (and is removed): the mirror
pass already deleted the record itself, so the final `Map.delete` misses. -/
theorem C3_counterexample :
    (getRelationship (createRelationship emptyStore ⟨"spouse", 7, 7⟩).2 1).isSome = true ∧
    (deleteRelationship (createRelationship emptyStore ⟨"spouse", 7, 7⟩).2 1).1 = false := by
  decide

/-- C3, amended: on a well-formed store, `deleteRelationship id` of a stored
relationship removes it together with every stored mirror (reciprocal type,
person ids swapped) and returns `true` — unless the relationship is its own
mirror (equal person ids and self-reciprocal type), in which case it is
still removed but `false` is returned; an id with no stored relationship
returns `false` and leaves the store unchanged. -/
theorem C3_deleteRelationship {s : Store} (hWF : WF s) (id : Int) :
    (mapGet s.relationships id = none → deleteRelationship s id = (false, s)) ∧
    (∀ r, mapGet s.relationships id = some r →
      deleteRelationship s id =
        (!decide (mirrors r r),
         { s with relationships :=
             s.relationships.filter (fun e => !decide (mirrors e.2 r) && e.1 != id) })) := by
  constructor
  · intro h
    exact deleteRelationship_not_found h
  · intro r h
    exact deleteRelationship_found hWF.2 h

/-- Witness for C3 at a concrete store. -/
theorem C3_deleteRelationship_witness :
    deleteRelationship (createRelationship emptyStore ⟨"parent", 1, 2⟩).2 1 =
      (true, { (createRelationship emptyStore ⟨"parent", 1, 2⟩).2 with
        relationships := [] }) := by
  have h := (C3_deleteRelationship
    (s := (createRelationship emptyStore ⟨"parent", 1, 2⟩).2) (by decide) 1).2
    ⟨⟨"parent", 1, 2⟩, 1⟩ (by decide)
  rw [h]
  decide

/-- C4: on a well-formed store, after `deletePerson id` the person is absent,
no relationship touching the id remains, and the returned boolean reports
whether the person was stored. -/
theorem C4_deletePerson {s : Store} (hWF : WF s) (id : Int) :
    (deletePerson s id).1 = mapHas s.persons id ∧
    mapGet (deletePerson s id).2.persons id = none ∧
    ∀ e ∈ (deletePerson s id).2.relationships, ¬ touches e.2 id := by
  have hspec := deletePerson_spec hWF id
  refine ⟨?_, ?_, ?_⟩
  · rw [hspec]
  · rw [hspec]
    apply mapGet_eq_none_of_not_has
    intro hc
    obtain ⟨e, he, hek⟩ := mapHas_iff.mp hc
    have := List.mem_filter.mp he
    rw [hek] at this
    simp at this
  · intro e he
    rw [hspec] at he
    have := (List.mem_filter.mp he).2
    intro ht
    rw [decide_eq_true ht] at this
    cases this

/-- Witness for C4 at a concrete store. -/
theorem C4_deletePerson_witness :
    (deletePerson
      (createRelationship (createPerson emptyStore samplePerson).2 ⟨"parent", 1, 2⟩).2 1).1 =
      mapHas (createRelationship (createPerson emptyStore samplePerson).2
        ⟨"parent", 1, 2⟩).2.persons 1 ∧
    mapGet (deletePerson
      (createRelationship (createPerson emptyStore samplePerson).2 ⟨"parent", 1, 2⟩).2
        1).2.persons 1 = none :=
  ⟨(C4_deletePerson (by decide) 1).1, (C4_deletePerson (by decide) 1).2.1⟩

/-- C5, counterexample: with two input persons sharing an id, the earlier
person has no recorded parent yet is absent from the returned roots (the
node map keeps only the later record per id), so the forest's roots are not
"exactly those input persons with no recorded parent". -/
theorem C5_counterexample :
    (⟨⟨"Ada", none, none, none, none, none⟩, 1⟩ : Person) ∈
      ([⟨⟨"Ada", none, none, none, none, none⟩, 1⟩,
        ⟨⟨"Bea", none, none, none, none, none⟩, 1⟩] : List Person) ∧
    (⟨⟨"Ada", none, none, none, none, none⟩, 1⟩ : Person) ∉
      (buildFamilyTree
        ⟨[⟨⟨"Ada", none, none, none, none, none⟩, 1⟩,
          ⟨⟨"Bea", none, none, none, none, none⟩, 1⟩], []⟩).map
        (fun n => n.person) := by
  decide

/-- C5, amended: for inputs whose persons have pairwise-distinct ids,
`buildFamilyTree` returns as roots exactly the input persons that occur as
`personId` of no `'child'` relationship, in strictly ascending id order, and
returns `[]` on an empty persons list. -/
theorem C5_buildFamilyTree_roots (d : FamilyTreeData)
    (hnd : (d.persons.map (·.id)).Nodup) :
    List.Perm ((buildFamilyTree d).map (fun n => n.person))
      (d.persons.filter (fun p =>
        !(d.relationships.any (fun r => r.type == "child" && r.personId == p.id)))) ∧
    (buildFamilyTree d).Pairwise (fun a b => a.person.id < b.person.id) ∧
    (d.persons = [] → buildFamilyTree d = []) := by
  by_cases hlen : d.persons.length = 0
  · have hnil : d.persons = [] := List.length_eq_zero.mp hlen
    have hbt : buildFamilyTree d = [] := by rw [buildFamilyTree, if_pos hlen]
    rw [hbt, hnil]
    exact ⟨by simp, List.Pairwise.nil, fun _ => rfl⟩
  · have hbt : buildFamilyTree d = sortNodesById
        ((d.persons.filter (fun p =>
          !(((d.relationships.filter (fun r => r.type == "child")).map
              (·.personId)).contains p.id))).filterMap
          (fun p => mapGet (buildNodesMap d) p.id)) := by
      rw [buildFamilyTree, if_neg hlen]
    set rc := d.persons.filter (fun p =>
      !(((d.relationships.filter (fun r => r.type == "child")).map
          (·.personId)).contains p.id)) with hrc
    set roots0 := rc.filterMap (fun p => mapGet (buildNodesMap d) p.id) with hroots0
    have hall : ∀ p ∈ rc, ∃ nd, mapGet (buildNodesMap d) p.id = some nd ∧ nd.person = p :=
      fun p hp => buildNodesMap_person hnd (List.mem_of_mem_filter hp)
    have hmap : roots0.map (fun n => n.person) = rc := filterMap_nodes_map_person rc hall
    have hpred : rc = d.persons.filter (fun p =>
        !(d.relationships.any (fun r => r.type == "child" && r.personId == p.id))) := by
      rw [hrc]
      apply List.filter_congr
      intro p _
      have hca : (((d.relationships.filter (fun r => r.type == "child")).map
          (·.personId)).contains p.id) =
          d.relationships.any (fun r => r.type == "child" && r.personId == p.id) := by
        rw [Bool.eq_iff_iff]
        simp [List.any_eq_true, List.mem_map, List.mem_filter]
        tauto
      rw [hca]
    have hperm : List.Perm ((buildFamilyTree d).map (fun n => n.person))
        (d.persons.filter (fun p =>
          !(d.relationships.any (fun r => r.type == "child" && r.personId == p.id)))) := by
      rw [hbt, ← hpred, ← hmap]
      exact (sortNodesById_perm roots0).map (fun n => n.person)
    refine ⟨hperm, ?_, ?_⟩
    · rw [hbt]
      have hsorted := sortNodesById_sorted roots0
      have hnodup : ((sortNodesById roots0).map (fun n => n.person.id)).Nodup := by
        have h1 : List.Perm ((sortNodesById roots0).map (fun n => n.person)) rc := by
          have := (sortNodesById_perm roots0).map (fun n => n.person)
          rwa [hmap] at this
        have h2 := h1.map (fun p => p.id)
        have h3 : (rc.map (fun p => p.id)).Nodup := by
          have hsub : (rc.map (fun p => p.id)).Sublist (d.persons.map (fun p => p.id)) := by
            rw [hrc]
            exact (List.filter_sublist _).map _
          exact hsub.nodup hnd
        have h4 := h2.nodup_iff.mpr h3
        rwa [List.map_map] at h4
      have hne : (sortNodesById roots0).Pairwise
          (fun a b => a.person.id ≠ b.person.id) :=
        List.pairwise_map.mp hnodup
      have hand := List.Pairwise.and hsorted hne
      exact hand.imp (fun h => lt_of_le_of_ne h.1 h.2)
    · intro h
      refine absurd ?_ hlen
      rw [h]
      rfl

/-- Witness for C5 at a concrete input. -/
theorem C5_buildFamilyTree_roots_witness :
    List.Perm ((buildFamilyTree
        ⟨[⟨samplePersonB, 2⟩, ⟨samplePerson, 1⟩], []⟩).map (fun n => n.person))
      (([⟨samplePersonB, 2⟩, ⟨samplePerson, 1⟩] : List Person).filter (fun p =>
        !(([] : List Relationship).any
          (fun r => r.type == "child" && r.personId == p.id)))) :=
  (C5_buildFamilyTree_roots ⟨[⟨samplePersonB, 2⟩, ⟨samplePerson, 1⟩], []⟩ (by decide)).1

/-- C6: the derived arrays of every node of the built node map are rebuilt
solely from the flat relationship list: for any id `b`, the multiplicity of
`b` in the node's children (resp. parents, spouses, siblings) array equals
the number of relationships of type `parent` (resp. `child`, `spouse`,
`sibling`) from the node's key to `b` whose related person id occurs in the
persons list. -/
theorem C6_derived_arrays (d : FamilyTreeData) (k : Int) (n : FTNode)
    (h : mapGet (buildNodesMap d) k = some n) (b : Int) :
    n.children.count b = (d.relationships.filter (fun r =>
        r.type == "parent" && r.personId == k && r.relatedPersonId == b &&
        d.persons.any (fun p => p.id == b))).length ∧
    n.parents.count b = (d.relationships.filter (fun r =>
        r.type == "child" && r.personId == k && r.relatedPersonId == b &&
        d.persons.any (fun p => p.id == b))).length ∧
    n.spouses.count b = (d.relationships.filter (fun r =>
        r.type == "spouse" && r.personId == k && r.relatedPersonId == b &&
        d.persons.any (fun p => p.id == b))).length ∧
    n.siblings.count b = (d.relationships.filter (fun r =>
        r.type == "sibling" && r.personId == k && r.relatedPersonId == b &&
        d.persons.any (fun p => p.id == b))).length := by
  have hfold := fold_arrays d.relationships (initNodesMap d.persons) k
  rw [buildNodesMap] at h
  rw [h] at hfold
  cases hm : mapGet (initNodesMap d.persons) k with
  | none =>
    rw [hm] at hfold
    simp at hfold
  | some n0 =>
    rw [hm] at hfold
    simp only [Option.map_some'] at hfold
    have h4 := Option.some.inj hfold
    obtain ⟨hc0, hp0, hs0, hsi0⟩ := initNodesMap_arrays hm
    have hch : n.children =
        derivedIds "parent" d.relationships (initNodesMap d.persons) k := by
      have := congrArg (fun q => q.1) h4
      simpa [nodeArrays, hc0] using this
    have hpa : n.parents =
        derivedIds "child" d.relationships (initNodesMap d.persons) k := by
      have := congrArg (fun q => q.2.1) h4
      simpa [nodeArrays, hp0] using this
    have hsp : n.spouses =
        derivedIds "spouse" d.relationships (initNodesMap d.persons) k := by
      have := congrArg (fun q => q.2.2.1) h4
      simpa [nodeArrays, hs0] using this
    have hsi : n.siblings =
        derivedIds "sibling" d.relationships (initNodesMap d.persons) k := by
      have := congrArg (fun q => q.2.2.2) h4
      simpa [nodeArrays, hsi0] using this
    refine ⟨?_, ?_, ?_, ?_⟩
    · rw [hch]
      exact derived_count "parent" d k b
    · rw [hpa]
      exact derived_count "child" d k b
    · rw [hsp]
      exact derived_count "spouse" d k b
    · rw [hsi]
      exact derived_count "sibling" d k b

/-- A sample tree-builder input used in concrete instantiations. -/
def treeSampleData : FamilyTreeData :=
  ⟨[⟨samplePerson, 1⟩, ⟨samplePersonB, 2⟩],
   [⟨⟨"parent", 1, 2⟩, 1⟩, ⟨⟨"child", 2, 1⟩, 2⟩]⟩

/-- Witness for C6 at a concrete input. -/
theorem C6_derived_arrays_witness :
    (⟨⟨samplePerson, 1⟩, [2], [], [], []⟩ : FTNode).children.count 2 =
      (treeSampleData.relationships.filter (fun r =>
        r.type == "parent" && r.personId == 1 && r.relatedPersonId == 2 &&
        treeSampleData.persons.any (fun p => p.id == 2))).length :=
  (C6_derived_arrays treeSampleData 1 ⟨⟨samplePerson, 1⟩, [2], [], [], []⟩
    (by decide) 2).1

/-- C7: ids are assigned from auto-incrementing counters starting at 1: in
every reachable store state the histories of assigned person and relationship
ids are strictly increasing (each new id exceeds all earlier ones), every
assigned id is at least 1 and below the current counter, every stored key was
assigned, and in particular the stored person ids and the stored relationship
ids are pairwise distinct. -/
theorem C7_id_assignment {s : Store} {ph rh : List Int} (h : Reach s ph rh) :
    ph.Pairwise (· < ·) ∧ rh.Pairwise (· < ·) ∧
    (∀ a ∈ ph, 1 ≤ a ∧ a < s.currentPersonId) ∧
    (∀ a ∈ rh, 1 ≤ a ∧ a < s.currentRelationshipId) ∧
    (∀ e ∈ s.persons, e.1 ∈ ph) ∧ (∀ e ∈ s.relationships, e.1 ∈ rh) ∧
    (s.persons.map (·.1)).Nodup ∧ (s.relationships.map (·.1)).Nodup := by
  obtain ⟨⟨hWFp, hWFr⟩, h1, h2, h3, h4, h5, h6, _, _⟩ := reach_master_inv h
  exact ⟨h1, h2, h3, h4, h5, h6, hWFp.1, hWFr.1⟩

/-- Witness for C7 at a concrete operation sequence. -/
theorem C7_id_assignment_witness :
    ((createRelationship (createPerson emptyStore samplePerson).2
        ⟨"parent", 1, 2⟩).2.persons.map (·.1)).Nodup ∧
    ((createRelationship (createPerson emptyStore samplePerson).2
        ⟨"parent", 1, 2⟩).2.relationships.map (·.1)).Nodup :=
  (C7_id_assignment (Reach.createR _ _ _ ⟨"parent", 1, 2⟩
    (Reach.createP _ _ _ samplePerson Reach.init))).2.2.2.2.2.2

/-- C8: when the id is stored, `updatePerson` replaces the stored record by
the given fields under the same id, returns the updated person, and leaves
every other person and all relationships unchanged; when the id is not
stored it returns `none` and leaves the store unchanged. -/
theorem C8_updatePerson (s : Store) (id : Int) (up : InsertPerson) :
    (mapGet s.persons id = none → updatePerson s id up = (none, s)) ∧
    (∀ p₀, mapGet s.persons id = some p₀ →
      (updatePerson s id up).1 = some { toInsertPerson := up, id := id } ∧
      mapGet (updatePerson s id up).2.persons id =
        some { toInsertPerson := up, id := id } ∧
      (∀ j, j ≠ id →
        mapGet (updatePerson s id up).2.persons j = mapGet s.persons j) ∧
      (updatePerson s id up).2.relationships = s.relationships) := by
  constructor
  · intro h
    exact updatePerson_not_found up h
  · intro p₀ h
    obtain ⟨h1, h2, h3, -, -⟩ := updatePerson_found up h
    refine ⟨h1, ?_, ?_, h3⟩
    · rw [h2, mapGet_mapSet]
      simp
    · intro j hj
      rw [h2, mapGet_mapSet, if_neg hj]

/-- Witness for C8 at a concrete store, in both the found and the not-found
case. -/
theorem C8_updatePerson_witness :
    (updatePerson (createPerson emptyStore samplePerson).2 1 samplePersonB).1 =
      some { toInsertPerson := samplePersonB, id := 1 } ∧
    updatePerson (createPerson emptyStore samplePerson).2 9 samplePersonB =
      (none, (createPerson emptyStore samplePerson).2) :=
  ⟨((C8_updatePerson (createPerson emptyStore samplePerson).2 1 samplePersonB).2
      ⟨samplePerson, 1⟩ (by decide)).1,
   (C8_updatePerson (createPerson emptyStore samplePerson).2 9 samplePersonB).1
      (by decide)⟩

/-- C9: deleting an unstored person id returns `false`, leaves the persons
map unchanged, and nevertheless removes every relationship touching the id
(the not-found failure is not atomic). -/
theorem C9_deletePerson_missing {s : Store} (hWF : WF s) (id : Int)
    (h : mapGet s.persons id = none) :
    (deletePerson s id).1 = false ∧
    (deletePerson s id).2.persons = s.persons ∧
    (deletePerson s id).2.relationships =
      s.relationships.filter (fun e => !decide (touches e.2 id)) := by
  have hspec := deletePerson_spec hWF id
  have hhas : mapHas s.persons id ≠ true := by
    rw [← mapGet_isSome_eq_mapHas, h]
    simp
  refine ⟨?_, ?_, ?_⟩
  · rw [hspec]
    exact eq_false_of_ne_true hhas
  · rw [hspec]
    exact mapDelete_of_not_has hhas
  · rw [hspec]

/-- Witness for C9 at a concrete store holding relationships that touch the
unstored person id 5. -/
theorem C9_deletePerson_missing_witness :
    (deletePerson (createRelationship emptyStore ⟨"parent", 5, 6⟩).2 5).1 =
      false ∧
    (deletePerson (createRelationship emptyStore ⟨"parent", 5, 6⟩).2 5).2.persons =
      (createRelationship emptyStore ⟨"parent", 5, 6⟩).2.persons ∧
    (deletePerson (createRelationship emptyStore ⟨"parent", 5, 6⟩).2 5).2.relationships =
      (createRelationship emptyStore ⟨"parent", 5, 6⟩).2.relationships.filter
        (fun e => !decide (touches e.2 5)) :=
  C9_deletePerson_missing (by decide) 5 (by decide)

/-- C10: every node produced by the layout engine lies inside the returned
bounding dimensions. -/
theorem C10_layout_bounds (rootPersons : List FTP) :
    ∀ n ∈ (layoutFamilyTree rootPersons).nodes,
      0 ≤ n.x ∧ 0 ≤ n.y ∧
      n.x + n.width ≤ (layoutFamilyTree rootPersons).dimensions.width ∧
      n.y + n.height ≤ (layoutFamilyTree rootPersons).dimensions.height := by
  intro n hn
  have hb := layout_fold_inBounds rootPersons ((⟨[], [], 0, 0⟩ : LState), (0 : ℚ))
    le_rfl le_rfl (fun m hm => absurd hm (List.not_mem_nil m)) n hn
  exact ⟨hb.1, hb.2.1, hb.2.2.1, hb.2.2.2⟩

/-- The layout of a single childless, spouseless root. -/
theorem layoutSingle_eq :
    layoutFamilyTree [FTP.mk 1 [] []] =
      ⟨[⟨0, 0, 256, 120, 1, 0⟩], [], ⟨256, 120⟩⟩ := by
  norm_num [layoutFamilyTree, processNode, processChildren, mkTreeNode, mkSpouseNode,
    pushNode, pushConnector, bumpMax, spouseStepF, childXOffsetF, centerXF,
    childConnectorsStep, FTP.pid, FTP.spouses, FTP.children, NODE_WIDTH, NODE_HEIGHT,
    LEVEL_HEIGHT, SIBLING_SPACING, SPOUSE_SPACING]

/-- Witness for C10 at a concrete forest. -/
theorem C10_layout_bounds_witness :
    (⟨0, 0, 256, 120, 1, 0⟩ : LNode) ∈ (layoutFamilyTree [FTP.mk 1 [] []]).nodes ∧
    0 ≤ (⟨0, 0, 256, 120, 1, 0⟩ : LNode).x ∧
    0 ≤ (⟨0, 0, 256, 120, 1, 0⟩ : LNode).y ∧
    (⟨0, 0, 256, 120, 1, 0⟩ : LNode).x + (⟨0, 0, 256, 120, 1, 0⟩ : LNode).width ≤
      (layoutFamilyTree [FTP.mk 1 [] []]).dimensions.width ∧
    (⟨0, 0, 256, 120, 1, 0⟩ : LNode).y + (⟨0, 0, 256, 120, 1, 0⟩ : LNode).height ≤
      (layoutFamilyTree [FTP.mk 1 [] []]).dimensions.height :=
  have hmem : (⟨0, 0, 256, 120, 1, 0⟩ : LNode) ∈
      (layoutFamilyTree [FTP.mk 1 [] []]).nodes := by
    rw [layoutSingle_eq]
    exact List.mem_singleton.mpr rfl
  ⟨hmem, C10_layout_bounds [FTP.mk 1 [] []] ⟨0, 0, 256, 120, 1, 0⟩ hmem⟩
